import Mathlib

/-!
# go_eventmanager: an in-memory publish/subscribe broadcaster

Shallow embedding of `event_manager.go`.

* A Go channel value is a reference; it is modelled as an index (`Nat`) into a heap of
  queues (`EventManager.chans`).  `make(chan EventData, 1000)` allocates the next index.
* The registry `map[string][]SubscriberInfo` is a function from channel names to optional
  subscriber lists (`none` = key absent).
* `close` of a closed channel and a send on a closed channel panic in Go; the operations that
  can reach them return `Option`, with `none` standing for the panic.
* The payload (`any`) is a type parameter `α`.
* The package-level variables `instance` and `once` are an explicit state (`Globals`); a
  `*EventManager` is an index into the managers allocated so far.
-/

namespace GoEventManager

set_option maxRecDepth 100000

/-- `EventData` of the source: an event name and an opaque payload. -/
structure EventData (α : Type) where
  Event : String
  Data : α
  deriving DecidableEq, Repr

/-- `SubscriberInfo` of the source; `Channel` is the handle of the subscriber's queue. -/
structure SubscriberInfo where
  Channel : Nat
  UserID : Int
  TenantID : String
  deriving DecidableEq, Repr

/-- The run-time state of one buffered Go channel of `EventData`. -/
structure Chan (α : Type) where
  buf : List (EventData α)
  cap : Nat
  closed : Bool
  deriving DecidableEq, Repr

/-- `EventManager` of the source (the mutex is not modelled) together with the heap of the
queues that `Subscribe` has allocated. -/
structure EventManager (α : Type) where
  subscribers : String → Option (List SubscriberInfo)
  chans : List (Chan α)

/-- The manager built inside `once.Do`: `subscribers: make(map[string][]SubscriberInfo)`. -/
def emptyManager (α : Type) : EventManager α :=
  { subscribers := fun _ => none, chans := [] }

/-- Go's `em.subscribers[channel]`: the nil (empty) slice when the key is absent. -/
def subsOf {α : Type} (em : EventManager α) (channel : String) : List SubscriberInfo :=
  match em.subscribers channel with
  | some subs => subs
  | none => []

/-- Map assignment `m[channel] = subs`. -/
def setKey (m : String → Option (List SubscriberInfo)) (channel : String)
    (subs : List SubscriberInfo) : String → Option (List SubscriberInfo) :=
  fun k => if k = channel then some subs else m k

/-- Map deletion `delete(m, channel)`. -/
def deleteKey (m : String → Option (List SubscriberInfo)) (channel : String) :
    String → Option (List SubscriberInfo) :=
  fun k => if k = channel then none else m k

/-- The queue made by `make(chan EventData, 1000)`. -/
def makeChan (α : Type) : Chan α :=
  { buf := [], cap := 1000, closed := false }

/-- `Subscribe`: allocate a queue, append the record to the channel's list, return the
handle. -/
def Subscribe {α : Type} (em : EventManager α) (channel : String) (userID : Int)
    (tenantID : String) : EventManager α × Nat :=
  let ch := em.chans.length
  ({ subscribers :=
       setKey em.subscribers channel
         (subsOf em channel ++ [{ Channel := ch, UserID := userID, TenantID := tenantID }]),
     chans := em.chans ++ [makeChan α] }, ch)

/-- The `for i, subscriber := range subs` loop of `Unsubscribe` up to its `break`: the index
of the first record whose `Channel` is `ch`. -/
def firstMatch (ch : Nat) : List SubscriberInfo → Option Nat
  | [] => none
  | subscriber :: rest =>
    if subscriber.Channel = ch then some 0
    else
      match firstMatch ch rest with
      | some i => some (i + 1)
      | none => none

/-- Go's `slices.Delete(s, i, j)` for `i ≤ j ≤ len(s)`. -/
def slicesDelete (s : List SubscriberInfo) (i j : Nat) : List SubscriberInfo :=
  s.take i ++ s.drop j

/-- Go's `close(ch)`: panics (`none`) on a nil or an already closed channel. -/
def closeChan {α : Type} (chans : List (Chan α)) (ch : Nat) : Option (List (Chan α)) :=
  match chans[ch]? with
  | none => none
  | some q => if q.closed then none else some (chans.set ch { q with closed := true })

/-- `Unsubscribe`: remove the first record with the handle and close the queue; then drop
the key when the list is empty. -/
def Unsubscribe {α : Type} (em : EventManager α) (channel : String) (ch : Nat) :
    Option (EventManager α) :=
  match em.subscribers channel with
  | none => some em
  | some subs =>
    let afterLoop : Option (EventManager α) :=
      match firstMatch ch subs with
      | none => some em
      | some i =>
        match closeChan em.chans ch with
        | none => none
        | some chans =>
          some { subscribers := setKey em.subscribers channel (slicesDelete subs i (i + 1)),
                 chans := chans }
    match afterLoop with
    | none => none
    | some em1 =>
      if (subsOf em1 channel).length = 0 then
        some { em1 with subscribers := deleteKey em1.subscribers channel }
      else some em1

/-- One `select { case sub.Channel <- eventData: default: }`: enqueue when there is room,
skip when the queue is full (or nil), panic (`none`) when the queue is closed. -/
def trySend {α : Type} (chans : List (Chan α)) (ch : Nat) (e : EventData α) :
    Option (List (Chan α)) :=
  match chans[ch]? with
  | none => some chans
  | some q =>
    if q.closed then none
    else if q.buf.length < q.cap then some (chans.set ch { q with buf := q.buf ++ [e] })
    else some chans

/-- The `for _, sub := range subs` loop of `SendEvent`. -/
def sendLoop {α : Type} (e : EventData α) :
    List SubscriberInfo → List (Chan α) → Option (List (Chan α))
  | [], chans => some chans
  | sub :: rest, chans =>
    match trySend chans sub.Channel e with
    | none => none
    | some chans1 => sendLoop e rest chans1

/-- `SendEvent`: when the channel exists, offer one `EventData` to every subscriber in list
order. -/
def SendEvent {α : Type} (em : EventManager α) (channel : String) (event : String) (data : α) :
    Option (EventManager α) :=
  match em.subscribers channel with
  | none => some em
  | some subs =>
    match sendLoop { Event := event, Data := data } subs em.chans with
    | none => none
    | some chans => some { em with chans := chans }

/-- What a consumer's `v, ok := <-ch` observes. -/
inductive RecvResult (α : Type) where
  | value (e : EventData α)
  | closed
  | blocks
  deriving DecidableEq, Repr

/-- Go's receive on a buffered channel: the oldest buffered event if there is one, else the
closed indication on a closed channel, else the reader blocks. -/
def recv {α : Type} (q : Chan α) : RecvResult α × Chan α :=
  match q.buf with
  | e :: rest => (RecvResult.value e, { q with buf := rest })
  | [] => if q.closed then (RecvResult.closed, q) else (RecvResult.blocks, q)

/-- The results of `n` successive reads of one queue (nobody else touching it). -/
def recvN {α : Type} : Nat → Chan α → List (RecvResult α)
  | 0, _ => []
  | n + 1, q => (recv q).1 :: recvN n (recv q).2

/-- A consumer read of handle `ch` as a state change (a read of a nil channel blocks). -/
def Receive {α : Type} (em : EventManager α) (ch : Nat) : EventManager α :=
  match em.chans[ch]? with
  | none => em
  | some q => { em with chans := em.chans.set ch (recv q).2 }

/-- The calls a client can make. -/
inductive Op (α : Type) where
  | subscribe (channel : String) (userID : Int) (tenantID : String)
  | unsubscribe (channel : String) (ch : Nat)
  | sendEvent (channel : String) (event : String) (data : α)
  | receive (ch : Nat)

/-- One call. -/
def step {α : Type} (em : EventManager α) : Op α → Option (EventManager α)
  | Op.subscribe c u t => some (Subscribe em c u t).1
  | Op.unsubscribe c h => Unsubscribe em c h
  | Op.sendEvent c n d => SendEvent em c n d
  | Op.receive h => some (Receive em h)

/-- A finite sequence of calls. -/
def run {α : Type} : List (Op α) → EventManager α → Option (EventManager α)
  | [], em => some em
  | op :: ops, em =>
    match step em op with
    | none => none
    | some em1 => run ops em1

/-- States reachable from the empty registry. -/
inductive Reachable {α : Type} : EventManager α → Prop where
  | init : Reachable (emptyManager α)
  | step {em em1 : EventManager α} (op : Op α) :
      Reachable em → step em op = some em1 → Reachable em1

/-- Handles of a subscriber list. -/
def handles (subs : List SubscriberInfo) : List Nat :=
  subs.map (fun s => s.Channel)

/-- The events of the `SendEvent` calls on `channel` in a call sequence, in call order. -/
def sentOn {α : Type} (channel : String) : List (Op α) → List (EventData α)
  | [] => []
  | Op.sendEvent c n d :: ops =>
    if c = channel then { Event := n, Data := d } :: sentOn channel ops else sentOn channel ops
  | _ :: ops => sentOn channel ops

/-- The spec's wording of the removal: the list without the first record whose queue is
`ch`. -/
def eraseFirst (ch : Nat) : List SubscriberInfo → List SubscriberInfo
  | [] => []
  | s :: rest => if s.Channel = ch then rest else s :: eraseFirst ch rest

/-- The effect of one successful or skipped non-blocking send on an open queue. -/
def deliver {α : Type} (e : EventData α) (q : Chan α) : Chan α :=
  if q.buf.length < q.cap then { q with buf := q.buf ++ [e] } else q

/-- The registry after a matching `Unsubscribe`. -/
def registryAfterRemove (m : String → Option (List SubscriberInfo)) (channel : String)
    (remaining : List SubscriberInfo) : String → Option (List SubscriberInfo) :=
  if remaining.length = 0 then deleteKey (setKey m channel remaining) channel
  else setKey m channel remaining

/-- The state of the repository's `TestEventManager_SendEvent` before its `SendEvent`: three
subscribers on one channel. -/
def threeSubscribers : EventManager String :=
  (Subscribe (Subscribe (Subscribe (emptyManager String)
    "test-channel" 1 "test-tenant").1 "test-channel" 1 "test-tenant").1
    "test-channel" 1 "test-tenant").1

/-- A subscriber that never reads while 1000 events are published, then a second subscriber
joins the channel. -/
def overflowOps : List (Op String) :=
  Op.subscribe "c" 1 "t" :: (List.replicate 1000 (Op.sendEvent "c" "e" "d") ++
    [Op.subscribe "c" 2 "t"])

/-- The state after `overflowOps`. -/
def overflowState : EventManager String :=
  (run overflowOps (emptyManager String)).getD (emptyManager String)

/-- Calls made after a first `Subscribe "test-channel"`: two events on that channel, and a
subscription and an event on another channel in between. -/
def laterOps : List (Op String) :=
  [Op.sendEvent "test-channel" "test-event" "test-data", Op.subscribe "other" 2 "t",
   Op.sendEvent "other" "x" "y", Op.sendEvent "test-channel" "second" "more"]

/-- One subscriber on channel `c` with one event still buffered. -/
def bufferedState : EventManager String :=
  (run [Op.subscribe "c" 1 "t", Op.sendEvent "c" "e" "d"] (emptyManager String)).getD
    (emptyManager String)

/-- One subscriber on channel `a` (handle 0) and one on channel `b` (handle 1). -/
def twoChannels : EventManager String :=
  (Subscribe (Subscribe (emptyManager String) "a" 1 "t").1 "b" 2 "t").1

/-- A registry in which handle 0 is listed twice on channel `c`, its queue open. -/
def dupOpen : EventManager String :=
  { subscribers := fun k =>
      if k = "c" then some [⟨0, 1, "t"⟩, ⟨1, 2, "t"⟩, ⟨0, 3, "u"⟩] else none,
    chans := [makeChan String, makeChan String] }

/-- The registry left by one `Unsubscribe "c" 0` on a list that held handle 0 twice: one
record of handle 0 is still listed and its queue is closed. -/
def dupClosed : EventManager String :=
  { subscribers := fun k => if k = "c" then some [⟨0, 3, "u"⟩] else none,
    chans := [{ buf := [], cap := 1000, closed := true }] }

/-- Whether a call unsubscribes the handle `h` or reads from it. -/
def touches {α : Type} (h : Nat) : Op α → Bool
  | Op.unsubscribe _ ch => decide (ch = h)
  | Op.receive ch => decide (ch = h)
  | _ => false

/-- The package-level variables `instance` and `once` of the source.  A `*EventManager` is
an index into `objects`, the managers allocated so far; `inst = none` is the nil pointer and
`once` tells whether `once.Do` has already run its function. -/
structure Globals (α : Type) where
  objects : List (EventManager α)
  inst : Option Nat
  once : Bool

/-- The package-level variables at program start: `instance` nil, `once` not yet used. -/
def initialGlobals (α : Type) : Globals α :=
  { objects := [], inst := none, once := false }

/-- `NewEventManager`: `once.Do` allocates the manager only if it has not run before; the
call returns `instance`. -/
def NewEventManager {α : Type} (g : Globals α) : Globals α × Option Nat :=
  let g1 : Globals α :=
    if g.once then g
    else { objects := g.objects ++ [emptyManager α], inst := some g.objects.length,
           once := true }
  (g1, g1.inst)

/-- What a client does with the package: ask for the manager, or make a call through a
manager pointer it holds. -/
inductive Call (α : Type) where
  | newEventManager
  | method (p : Nat) (op : Op α)

/-- A call through the pointer `p`: it changes the manager `p` points to, never the
package-level variables. -/
def callMethod {α : Type} (g : Globals α) (p : Nat) (op : Op α) : Option (Globals α) :=
  match g.objects[p]? with
  | none => none
  | some em =>
    match step em op with
    | none => none
    | some em1 => some { g with objects := g.objects.set p em1 }

/-- One client action on the package. -/
def callStep {α : Type} (g : Globals α) : Call α → Option (Globals α)
  | Call.newEventManager => some (NewEventManager g).1
  | Call.method p op => callMethod g p op

/-- A finite sequence of client actions. -/
def runCalls {α : Type} : List (Call α) → Globals α → Option (Globals α)
  | [], g => some g
  | cl :: cs, g =>
    match callStep g cl with
    | none => none
    | some g1 => runCalls cs g1

/-- The manager calls among a sequence of client actions, in order. -/
def methodOps {α : Type} : List (Call α) → List (Op α)
  | [] => []
  | Call.newEventManager :: cs => methodOps cs
  | Call.method _ op :: cs => op :: methodOps cs

/-- A client that gets the manager, subscribes twice, asks for the manager again and
publishes. -/
def singletonCalls : List (Call String) :=
  [Call.method 0 (Op.subscribe "test-channel" 1 "test-tenant"),
   Call.newEventManager,
   Call.method 0 (Op.subscribe "test-channel" 2 "test-tenant"),
   Call.newEventManager,
   Call.method 0 (Op.sendEvent "test-channel" "test-event" "test-data")]

/-- The package-level variables after `singletonCalls`, the manager obtained first. -/
def singletonGlobals : Globals String :=
  (runCalls singletonCalls (NewEventManager (initialGlobals String)).1).getD
    (initialGlobals String)

/-- One subscriber that never reads while 1200 events are published on its channel. -/
def floodState : EventManager String :=
  (run (Op.subscribe "c" 1 "t" :: List.replicate 1200 (Op.sendEvent "c" "e" "d"))
    (emptyManager String)).getD (emptyManager String)

/-- Whether the loop of `Unsubscribe` reaches its `break` in this call: the call is an
`Unsubscribe` and a record of the channel's list has the handle. -/
def foundMatch {α : Type} (em : EventManager α) : Op α → Bool
  | Op.unsubscribe c h => (firstMatch h (subsOf em c)).isSome
  | _ => false

/-- The number of `Unsubscribe` calls of a call sequence that found a match, the sequence
being run from `em`. -/
def matchedUnsubscribes {α : Type} : List (Op α) → EventManager α → Nat
  | [], _ => 0
  | op :: ops, em =>
    (if foundMatch em op then 1 else 0) +
      match step em op with
      | none => 0
      | some em1 => matchedUnsubscribes ops em1

/-- The number of `Subscribe` calls of a call sequence. -/
def subscribeCalls {α : Type} : List (Op α) → Nat
  | [] => 0
  | Op.subscribe _ _ _ :: ops => subscribeCalls ops + 1
  | _ :: ops => subscribeCalls ops

/-- The channel names passed to the `Subscribe` calls of a call sequence. -/
def subscribedChannels {α : Type} : List (Op α) → List String
  | [] => []
  | Op.subscribe c _ _ :: ops => c :: subscribedChannels ops
  | _ :: ops => subscribedChannels ops

/-- The number of subscriber records on the channels `keys`. -/
def recordCount {α : Type} (keys : Finset String) (em : EventManager α) : Nat :=
  keys.sum (fun c => (subsOf em c).length)

/-- The finite set `keys` contains every key of the registry. -/
def Covers {α : Type} (keys : Finset String) (em : EventManager α) : Prop :=
  ∀ c, (em.subscribers c).isSome = true → c ∈ keys

/-- Three subscriptions on two channels, one event, one matching and one unmatched
`Unsubscribe`. -/
def mixedOps : List (Op String) :=
  [Op.subscribe "a" 1 "t", Op.subscribe "b" 2 "t", Op.subscribe "a" 3 "t",
   Op.sendEvent "a" "e" "d", Op.unsubscribe "a" 0, Op.unsubscribe "b" 0]

/-- The state after `mixedOps`. -/
def mixedState : EventManager String :=
  (run mixedOps (emptyManager String)).getD (emptyManager String)

/-- The well-formedness of the registry that every reachable state has. -/
structure Inv {α : Type} (em : EventManager α) : Prop where
  nonempty : ∀ c subs, em.subscribers c = some subs → subs ≠ []
  isOpen : ∀ c subs s, em.subscribers c = some subs → s ∈ subs →
    ∃ q, em.chans[s.Channel]? = some q ∧ q.closed = false
  nodup : ∀ c subs, em.subscribers c = some subs → (handles subs).Nodup
  disjoint : ∀ c1 c2 l1 l2, c1 ≠ c2 → em.subscribers c1 = some l1 →
    em.subscribers c2 = some l2 → ∀ h, h ∈ handles l1 → h ∉ handles l2
  bounded : ∀ (i : Nat) (q : Chan α), em.chans[i]? = some q →
    q.cap = 1000 ∧ q.buf.length ≤ 1000

/-! ## Queues -/

theorem getElem?_set_of_some {β : Type} {l : List β} {n : Nat} {q : β} (x : β)
    (h : l[n]? = some q) (i : Nat) :
    (l.set n x)[i]? = if i = n then some x else l[i]? := by
  have hlt : n < l.length := by
    rcases Nat.lt_or_ge n l.length with h1 | h1
    · exact h1
    · rw [List.getElem?_eq_none h1] at h
      cases h
  rw [List.getElem?_set]
  by_cases hi : i = n
  · subst hi
    simp [hlt]
  · have hne : ¬ n = i := fun hh => hi hh.symm
    simp [hi, hne]

theorem deliver_closed {α : Type} (e : EventData α) (q : Chan α) :
    (deliver e q).closed = q.closed := by
  unfold deliver
  split <;> rfl

theorem deliver_cap {α : Type} (e : EventData α) (q : Chan α) :
    (deliver e q).cap = q.cap := by
  unfold deliver
  split <;> rfl

theorem deliver_length_le {α : Type} (e : EventData α) (q : Chan α)
    (h : q.buf.length ≤ q.cap) : (deliver e q).buf.length ≤ q.cap := by
  unfold deliver
  split
  · simp only [List.length_append, List.length_singleton]
    omega
  · exact h

theorem deliver_room {α : Type} (e : EventData α) (q : Chan α) (h : q.buf.length < q.cap) :
    deliver e q = { q with buf := q.buf ++ [e] } := by
  unfold deliver
  rw [if_pos h]

theorem deliver_full {α : Type} (e : EventData α) (q : Chan α) (h : ¬ q.buf.length < q.cap) :
    deliver e q = q := by
  unfold deliver
  rw [if_neg h]

theorem trySend_spec {α : Type} {chans : List (Chan α)} {ch : Nat} {q : Chan α}
    (e : EventData α) (h : chans[ch]? = some q) (ho : q.closed = false) :
    ∃ chans1, trySend chans ch e = some chans1 ∧
      ∀ i, chans1[i]? = if i = ch then some (deliver e q) else chans[i]? := by
  unfold trySend
  rw [h]
  have hc : ¬ (q.closed = true) := by simp [ho]
  simp only []
  rw [if_neg hc]
  by_cases hr : q.buf.length < q.cap
  · rw [if_pos hr]
    refine ⟨_, rfl, fun i => ?_⟩
    rw [getElem?_set_of_some _ h, deliver_room e q hr]
  · rw [if_neg hr]
    refine ⟨_, rfl, fun i => ?_⟩
    rw [deliver_full e q hr]
    by_cases hi : i = ch
    · rw [if_pos hi, hi, h]
    · rw [if_neg hi]

theorem sendLoop_spec {α : Type} (e : EventData α) :
    ∀ (subs : List SubscriberInfo) (chans : List (Chan α)),
      (∀ s, s ∈ subs → ∃ q, chans[s.Channel]? = some q ∧ q.closed = false) →
      (handles subs).Nodup →
      ∃ chans1, sendLoop e subs chans = some chans1 ∧
        ∀ i, chans1[i]? = if i ∈ handles subs then (chans[i]?).map (deliver e) else chans[i]? := by
  intro subs
  induction subs with
  | nil =>
    intro chans _ _
    exact ⟨chans, rfl, fun i => by simp [handles]⟩
  | cons s rest ih =>
    intro chans hopen hnd
    obtain ⟨q, hq, hqo⟩ := hopen s (List.mem_cons_self _ _)
    obtain ⟨chans1, h1, h1spec⟩ := trySend_spec e hq hqo
    have hnd2 : s.Channel ∉ handles rest ∧ (handles rest).Nodup := by
      simpa [handles] using hnd
    have hopen1 : ∀ t, t ∈ rest → ∃ q, chans1[t.Channel]? = some q ∧ q.closed = false := by
      intro t ht
      have hne : t.Channel ≠ s.Channel := by
        intro heq
        apply hnd2.1
        rw [← heq]
        exact List.mem_map_of_mem _ ht
      rw [h1spec, if_neg hne]
      exact hopen t (List.mem_cons_of_mem _ ht)
    obtain ⟨chans2, h2, h2spec⟩ := ih chans1 hopen1 hnd2.2
    refine ⟨chans2, ?_, fun i => ?_⟩
    · simp only [sendLoop, h1, h2]
    · rw [h2spec, h1spec]
      by_cases hi : i = s.Channel
      · have hin : i ∈ handles (s :: rest) := by simp [handles, hi]
        have hnin : i ∉ handles rest := by rw [hi]; exact hnd2.1
        rw [if_neg hnin, if_pos hi, if_pos hin, hi, hq]
        rfl
      · by_cases hr : i ∈ handles rest
        · have hin : i ∈ handles (s :: rest) := by
            simp only [handles, List.map_cons, List.mem_cons]
            exact Or.inr hr
          rw [if_pos hr, if_neg hi, if_pos hin]
        · have hnin : i ∉ handles (s :: rest) := by
            simp only [handles, List.map_cons, List.mem_cons, not_or]
            exact ⟨hi, hr⟩
          rw [if_neg hr, if_neg hi, if_neg hnin]

/-! ## The removal loop of `Unsubscribe` -/

theorem firstMatch_eq_none {ch : Nat} :
    ∀ {subs : List SubscriberInfo}, firstMatch ch subs = none ↔ ch ∉ handles subs := by
  intro subs
  induction subs with
  | nil => simp [firstMatch, handles]
  | cons s rest ih =>
    unfold firstMatch
    by_cases hs : s.Channel = ch
    · simp [hs, handles]
    · rw [if_neg hs]
      have hs2 : ¬ ch = s.Channel := fun hh => hs hh.symm
      cases hf : firstMatch ch rest with
      | none =>
        have := ih.mp hf
        simp only [handles, List.map_cons, List.mem_cons, not_or, true_iff]
        exact ⟨hs2, this⟩
      | some i =>
        have : ¬ (ch ∉ handles rest) := fun hh => by
          rw [ih.mpr hh] at hf
          cases hf
        constructor
        · intro hh
          cases hh
        · intro hh
          simp only [handles, List.map_cons, List.mem_cons, not_or] at hh
          exact absurd hh.2 this

theorem firstMatch_some_delete {ch : Nat} :
    ∀ {subs : List SubscriberInfo} {i : Nat}, firstMatch ch subs = some i →
      slicesDelete subs i (i + 1) = eraseFirst ch subs := by
  intro subs
  induction subs with
  | nil =>
    intro i h
    simp [firstMatch] at h
  | cons s rest ih =>
    intro i h
    unfold firstMatch at h
    by_cases hs : s.Channel = ch
    · rw [if_pos hs] at h
      cases h
      simp [slicesDelete, eraseFirst, hs]
    · rw [if_neg hs] at h
      cases hf : firstMatch ch rest with
      | none =>
        rw [hf] at h
        cases h
      | some j =>
        rw [hf] at h
        cases h
        have := ih hf
        simp only [slicesDelete, eraseFirst, if_neg hs, List.take_succ_cons, List.drop_succ_cons,
          List.cons_append] at this ⊢
        rw [this]

theorem firstMatch_of_mem {ch : Nat} {subs : List SubscriberInfo} (h : ch ∈ handles subs) :
    ∃ i, firstMatch ch subs = some i := by
  cases hf : firstMatch ch subs with
  | none => exact absurd h (firstMatch_eq_none.mp hf)
  | some i => exact ⟨i, rfl⟩

theorem mem_of_mem_eraseFirst {ch : Nat} {t : SubscriberInfo} :
    ∀ {subs : List SubscriberInfo}, t ∈ eraseFirst ch subs → t ∈ subs := by
  intro subs
  induction subs with
  | nil => intro h; simp [eraseFirst] at h
  | cons s rest ih =>
    intro h
    unfold eraseFirst at h
    by_cases hs : s.Channel = ch
    · rw [if_pos hs] at h
      exact List.mem_cons_of_mem _ h
    · rw [if_neg hs] at h
      rcases List.mem_cons.mp h with h1 | h1
      · rw [h1]; exact List.mem_cons_self _ _
      · exact List.mem_cons_of_mem _ (ih h1)

theorem handles_eraseFirst_sublist (ch : Nat) :
    ∀ (subs : List SubscriberInfo), (handles (eraseFirst ch subs)).Sublist (handles subs) := by
  intro subs
  induction subs with
  | nil => simp [eraseFirst, handles]
  | cons s rest ih =>
    unfold eraseFirst
    by_cases hs : s.Channel = ch
    · rw [if_pos hs]
      exact List.sublist_cons_self _ _
    · rw [if_neg hs]
      exact List.Sublist.cons₂ _ ih

theorem not_mem_handles_eraseFirst {ch : Nat} :
    ∀ {subs : List SubscriberInfo}, (handles subs).Nodup → ch ∉ handles (eraseFirst ch subs) := by
  intro subs
  induction subs with
  | nil => intro _; simp [eraseFirst, handles]
  | cons s rest ih =>
    intro hnd
    have hnd2 : s.Channel ∉ handles rest ∧ (handles rest).Nodup := by
      simpa [handles] using hnd
    unfold eraseFirst
    by_cases hs : s.Channel = ch
    · rw [if_pos hs, ← hs]
      exact hnd2.1
    · rw [if_neg hs]
      have hs2 : ¬ ch = s.Channel := fun hh => hs hh.symm
      simp only [handles, List.map_cons, List.mem_cons, not_or]
      exact ⟨hs2, ih hnd2.2⟩

theorem length_eraseFirst {ch : Nat} :
    ∀ {subs : List SubscriberInfo}, ch ∈ handles subs →
      (eraseFirst ch subs).length + 1 = subs.length := by
  intro subs
  induction subs with
  | nil => intro h; simp [handles] at h
  | cons s rest ih =>
    intro h
    unfold eraseFirst
    by_cases hs : s.Channel = ch
    · rw [if_pos hs]
      rfl
    · rw [if_neg hs]
      have hs2 : ¬ ch = s.Channel := fun hh => hs hh.symm
      have h2 : ch ∈ handles rest := by
        simpa [handles, hs2] using h
      simp only [List.length_cons]
      rw [ih h2]

theorem closeChan_spec {α : Type} {chans : List (Chan α)} {ch : Nat} {q : Chan α}
    (h : chans[ch]? = some q) (ho : q.closed = false) :
    closeChan chans ch = some (chans.set ch { q with closed := true }) := by
  unfold closeChan
  rw [h]
  have hc : ¬ (q.closed = true) := by simp [ho]
  simp only []
  rw [if_neg hc]

theorem Unsubscribe_absent {α : Type} {em : EventManager α} {c : String} (h : Nat)
    (hc : em.subscribers c = none) : Unsubscribe em c h = some em := by
  unfold Unsubscribe
  rw [hc]

theorem Unsubscribe_match {α : Type} {em : EventManager α} {c : String} {h : Nat}
    {subs : List SubscriberInfo} {q : Chan α}
    (hc : em.subscribers c = some subs) (hm : h ∈ handles subs)
    (hq : em.chans[h]? = some q) (ho : q.closed = false) :
    Unsubscribe em c h =
      some { subscribers := registryAfterRemove em.subscribers c (eraseFirst h subs),
             chans := em.chans.set h { q with closed := true } } := by
  obtain ⟨i, hi⟩ := firstMatch_of_mem hm
  unfold Unsubscribe
  rw [hc]
  simp only [hi, closeChan_spec hq ho, firstMatch_some_delete hi, subsOf, setKey, if_true,
    registryAfterRemove]
  split <;> rfl

theorem Unsubscribe_nomatch {α : Type} {em : EventManager α} {c : String} {h : Nat}
    {subs : List SubscriberInfo}
    (hc : em.subscribers c = some subs) (hm : h ∉ handles subs) (hne : subs ≠ []) :
    Unsubscribe em c h = some em := by
  unfold Unsubscribe
  rw [hc]
  have hlen : ¬ subs.length = 0 := by
    intro h0
    exact hne (List.length_eq_zero.mp h0)
  simp only [firstMatch_eq_none.mpr hm, subsOf, hc, if_neg hlen]

/-! ## The invariant is kept by every call -/

theorem Inv_emptyManager (α : Type) : Inv (emptyManager α) := by
  constructor
  · intro c subs h; cases h
  · intro c subs s h; cases h
  · intro c subs h; cases h
  · intro c1 c2 l1 l2 _ h; cases h
  · intro i q h
    simp [emptyManager] at h

theorem mem_handles_of_mem {s : SubscriberInfo} {subs : List SubscriberInfo} (h : s ∈ subs) :
    s.Channel ∈ handles subs :=
  List.mem_map_of_mem _ h

theorem exists_of_mem_handles {h : Nat} {subs : List SubscriberInfo} (hm : h ∈ handles subs) :
    ∃ s, s ∈ subs ∧ s.Channel = h := by
  simpa [handles] using hm

theorem Inv.lt_length {α : Type} {em : EventManager α} (hI : Inv em) {c : String}
    {subs : List SubscriberInfo} (hc : em.subscribers c = some subs) {h : Nat}
    (hm : h ∈ handles subs) : h < em.chans.length := by
  obtain ⟨s, hs, rfl⟩ := exists_of_mem_handles hm
  obtain ⟨q, hq, _⟩ := hI.isOpen c subs s hc hs
  rcases Nat.lt_or_ge s.Channel em.chans.length with h1 | h1
  · exact h1
  · rw [List.getElem?_eq_none h1] at hq
    cases hq

theorem Inv.subsOf_lt {α : Type} {em : EventManager α} (hI : Inv em) (c : String) {h : Nat}
    (hm : h ∈ handles (subsOf em c)) : h < em.chans.length := by
  unfold subsOf at hm
  cases hc : em.subscribers c with
  | none => rw [hc] at hm; simp [handles] at hm
  | some subs => rw [hc] at hm; exact hI.lt_length hc hm

theorem Inv.subsOf_nodup {α : Type} {em : EventManager α} (hI : Inv em) (c : String) :
    (handles (subsOf em c)).Nodup := by
  unfold subsOf
  cases hc : em.subscribers c with
  | none => simp [handles]
  | some subs => exact hI.nodup c subs hc

theorem Inv_Subscribe {α : Type} {em : EventManager α} (hI : Inv em) (c : String) (u : Int)
    (t : String) : Inv (Subscribe em c u t).1 := by
  have hnew : (em.chans ++ [makeChan α])[em.chans.length]? = some (makeChan α) := by
    simp
  have hold : ∀ i, i < em.chans.length → (em.chans ++ [makeChan α])[i]? = em.chans[i]? := by
    intro i hi
    exact List.getElem?_append_left hi
  have hfresh : ∀ k l, em.subscribers k = some l → em.chans.length ∉ handles l := by
    intro k l hk hm
    exact Nat.lt_irrefl _ (hI.lt_length hk hm)
  have hfresh2 : em.chans.length ∉ handles (subsOf em c) := fun hm =>
    Nat.lt_irrefl _ (hI.subsOf_lt c hm)
  have hhandles : ∀ r : SubscriberInfo, handles (subsOf em c ++ [r]) =
      handles (subsOf em c) ++ [r.Channel] := by
    intro r
    simp [handles]
  constructor
  · intro k l hk
    simp only [Subscribe, setKey] at hk
    by_cases hkc : k = c
    · rw [if_pos hkc] at hk
      cases hk
      simp
    · rw [if_neg hkc] at hk
      exact hI.nonempty k l hk
  · intro k l s hk hs
    simp only [Subscribe, setKey] at hk ⊢
    by_cases hkc : k = c
    · rw [if_pos hkc] at hk
      cases hk
      rcases List.mem_append.mp hs with h1 | h1
      · have hlt := hI.subsOf_lt c (mem_handles_of_mem h1)
        rw [hold _ hlt]
        unfold subsOf at h1
        cases hc : em.subscribers c with
        | none => rw [hc] at h1; cases h1
        | some subs => rw [hc] at h1; exact hI.isOpen c subs s hc h1
      · rw [List.mem_singleton.mp h1]
        exact ⟨makeChan α, hnew, rfl⟩
    · rw [if_neg hkc] at hk
      have hlt := hI.lt_length hk (mem_handles_of_mem hs)
      rw [hold _ hlt]
      exact hI.isOpen k l s hk hs
  · intro k l hk
    simp only [Subscribe, setKey] at hk
    by_cases hkc : k = c
    · rw [if_pos hkc] at hk
      cases hk
      rw [hhandles]
      refine List.Nodup.append (hI.subsOf_nodup c) (List.nodup_singleton _) ?_
      intro x hx hx2
      rw [List.mem_singleton.mp hx2] at hx
      exact hfresh2 hx
    · rw [if_neg hkc] at hk
      exact hI.nodup k l hk
  · intro c1 c2 l1 l2 hne h1 h2 x hx1 hx2
    simp only [Subscribe, setKey] at h1 h2
    by_cases hc1 : c1 = c
    · have hc2 : ¬ c2 = c := fun hh => hne (hc1.trans hh.symm)
      rw [if_pos hc1] at h1
      rw [if_neg hc2] at h2
      cases h1
      rw [hhandles] at hx1
      rcases List.mem_append.mp hx1 with h3 | h3
      · unfold subsOf at h3
        cases hc : em.subscribers c with
        | none => rw [hc] at h3; simp [handles] at h3
        | some subs =>
          rw [hc] at h3
          exact hI.disjoint c c2 subs l2 (fun hh => hc2 hh.symm) hc h2 x h3 hx2
      · rw [List.mem_singleton.mp h3] at hx2
        exact hfresh c2 l2 h2 hx2
    · rw [if_neg hc1] at h1
      by_cases hc2 : c2 = c
      · rw [if_pos hc2] at h2
        cases h2
        rw [hhandles] at hx2
        rcases List.mem_append.mp hx2 with h3 | h3
        · unfold subsOf at h3
          cases hc : em.subscribers c with
          | none => rw [hc] at h3; simp [handles] at h3
          | some subs =>
            rw [hc] at h3
            exact hI.disjoint c1 c l1 subs hc1 h1 hc x hx1 h3
        · rw [List.mem_singleton.mp h3] at hx1
          exact hfresh c1 l1 h1 hx1
      · rw [if_neg hc2] at h2
        exact hI.disjoint c1 c2 l1 l2 hne h1 h2 x hx1 hx2
  · intro i q hq
    simp only [Subscribe] at hq
    rcases Nat.lt_or_ge i em.chans.length with h1 | h1
    · rw [hold i h1] at hq
      exact hI.bounded i q hq
    · rcases Nat.eq_or_lt_of_le h1 with h2 | h2
      · rw [← h2, hnew] at hq
        cases hq
        simp [makeChan]
      · rw [List.getElem?_eq_none (by simp; omega)] at hq
        cases hq

theorem registryAfterRemove_apply (m : String → Option (List SubscriberInfo)) (c : String)
    (l : List SubscriberInfo) (k : String) :
    registryAfterRemove m c l k =
      if k = c then (if l.length = 0 then none else some l) else m k := by
  unfold registryAfterRemove
  by_cases h0 : l.length = 0 <;> by_cases hk : k = c <;> simp [h0, hk, deleteKey, setKey]

/-- A change of the heap that keeps every queue's open/closed flag keeps the invariant,
provided the bounds still hold. -/
theorem Inv_of_heap {α : Type} {em em1 : EventManager α} (hI : Inv em)
    (hs : em1.subscribers = em.subscribers)
    (hflag : ∀ (i : Nat) (q : Chan α), em.chans[i]? = some q →
      ∃ q1, em1.chans[i]? = some q1 ∧ q1.closed = q.closed)
    (hb : ∀ (i : Nat) (q1 : Chan α), em1.chans[i]? = some q1 →
      q1.cap = 1000 ∧ q1.buf.length ≤ 1000) : Inv em1 := by
  constructor
  · intro c subs h
    rw [hs] at h
    exact hI.nonempty c subs h
  · intro c subs s h hm
    rw [hs] at h
    obtain ⟨q, hq, ho⟩ := hI.isOpen c subs s h hm
    obtain ⟨q1, hq1, hc1⟩ := hflag _ q hq
    exact ⟨q1, hq1, hc1.trans ho⟩
  · intro c subs h
    rw [hs] at h
    exact hI.nodup c subs h
  · intro c1 c2 l1 l2 hne h1 h2
    rw [hs] at h1 h2
    exact hI.disjoint c1 c2 l1 l2 hne h1 h2
  · exact hb

theorem Inv_Unsubscribe {α : Type} {em : EventManager α} (hI : Inv em) (c : String) (h : Nat) :
    ∃ em1, Unsubscribe em c h = some em1 ∧ Inv em1 := by
  cases hc : em.subscribers c with
  | none => exact ⟨em, Unsubscribe_absent h hc, hI⟩
  | some subs =>
    by_cases hm : h ∈ handles subs
    · obtain ⟨s, hs, hsh⟩ := exists_of_mem_handles hm
      obtain ⟨q, hq, ho⟩ := hI.isOpen c subs s hc hs
      rw [hsh] at hq
      refine ⟨_, Unsubscribe_match hc hm hq ho, ?_⟩
      have hnd := hI.nodup c subs hc
      have hnotin : h ∉ handles (eraseFirst h subs) := not_mem_handles_eraseFirst hnd
      have hsubl := handles_eraseFirst_sublist h subs
      have hlook : ∀ k l, registryAfterRemove em.subscribers c (eraseFirst h subs) k = some l →
          (k = c ∧ l = eraseFirst h subs ∧ l ≠ []) ∨ (k ≠ c ∧ em.subscribers k = some l) := by
        intro k l hk
        rw [registryAfterRemove_apply] at hk
        by_cases hkc : k = c
        · rw [if_pos hkc] at hk
          by_cases h0 : (eraseFirst h subs).length = 0
          · rw [if_pos h0] at hk; cases hk
          · rw [if_neg h0] at hk
            cases hk
            exact Or.inl ⟨hkc, rfl, fun hh => h0 (by rw [hh]; rfl)⟩
        · rw [if_neg hkc] at hk
          exact Or.inr ⟨hkc, hk⟩
      have hother : ∀ k l, k ≠ c → em.subscribers k = some l → h ∉ handles l := by
        intro k l hkc hk hin
        exact hI.disjoint c k subs l (fun hh => hkc hh.symm) hc hk h hm hin
      constructor
      · intro k l hk
        rcases hlook k l hk with ⟨_, _, h3⟩ | ⟨_, h2⟩
        · exact h3
        · exact hI.nonempty k l h2
      · intro k l t hk ht
        simp only []
        have key : t.Channel ≠ h ∧ ∃ q, em.chans[t.Channel]? = some q ∧ q.closed = false := by
          rcases hlook k l hk with ⟨_, h2, _⟩ | ⟨h1, h2⟩
          · rw [h2] at ht
            refine ⟨?_, hI.isOpen c subs t hc (mem_of_mem_eraseFirst ht)⟩
            intro heq
            have hin := mem_handles_of_mem ht
            rw [heq] at hin
            exact hnotin hin
          · refine ⟨?_, hI.isOpen k l t h2 ht⟩
            intro heq
            have hin := mem_handles_of_mem ht
            rw [heq] at hin
            exact hother k l h1 h2 hin
        rw [getElem?_set_of_some _ hq, if_neg key.1]
        exact key.2
      · intro k l hk
        rcases hlook k l hk with ⟨_, h2, _⟩ | ⟨_, h2⟩
        · rw [h2]
          exact List.Nodup.sublist hsubl hnd
        · exact hI.nodup k l h2
      · intro c1 c2 l1 l2 hne h1 h2 x hx1 hx2
        rcases hlook c1 l1 h1 with ⟨a1, a2, _⟩ | ⟨a1, a2⟩
        · rcases hlook c2 l2 h2 with ⟨b1, _, _⟩ | ⟨b1, b2⟩
          · exact hne (a1.trans b1.symm)
          · rw [a2] at hx1
            exact hI.disjoint c c2 subs l2 (fun hh => b1 hh.symm) hc b2 x
              (hsubl.subset hx1) hx2
        · rcases hlook c2 l2 h2 with ⟨_, b2, _⟩ | ⟨_, b2⟩
          · rw [b2] at hx2
            exact hI.disjoint c1 c l1 subs a1 a2 hc x hx1 (hsubl.subset hx2)
          · exact hI.disjoint c1 c2 l1 l2 hne a2 b2 x hx1 hx2
      · intro i q1 hq1
        simp only [] at hq1
        rw [getElem?_set_of_some _ hq] at hq1
        by_cases hi : i = h
        · rw [if_pos hi] at hq1
          cases hq1
          exact hI.bounded h q hq
        · rw [if_neg hi] at hq1
          exact hI.bounded i q1 hq1
    · exact ⟨em, Unsubscribe_nomatch hc hm (hI.nonempty c subs hc), hI⟩

theorem SendEvent_absent {α : Type} {em : EventManager α} {c : String} (n : String) (d : α)
    (hc : em.subscribers c = none) : SendEvent em c n d = some em := by
  unfold SendEvent
  rw [hc]

theorem SendEvent_spec {α : Type} {em : EventManager α} (hI : Inv em) {c : String}
    {subs : List SubscriberInfo} (n : String) (d : α) (hc : em.subscribers c = some subs) :
    ∃ chans1, SendEvent em c n d = some { em with chans := chans1 } ∧
      ∀ i, chans1[i]? =
        if i ∈ handles subs then (em.chans[i]?).map (deliver { Event := n, Data := d })
        else em.chans[i]? := by
  obtain ⟨chans1, h1, hspec⟩ := sendLoop_spec { Event := n, Data := d } subs em.chans
    (fun s hs => hI.isOpen c subs s hc hs) (hI.nodup c subs hc)
  refine ⟨chans1, ?_, hspec⟩
  unfold SendEvent
  rw [hc]
  simp only [h1]

theorem Inv_SendEvent {α : Type} {em : EventManager α} (hI : Inv em) (c : String) (n : String)
    (d : α) : ∃ em1, SendEvent em c n d = some em1 ∧ Inv em1 := by
  cases hc : em.subscribers c with
  | none => exact ⟨em, SendEvent_absent n d hc, hI⟩
  | some subs =>
    obtain ⟨chans1, h1, hspec⟩ := SendEvent_spec hI n d hc
    refine ⟨_, h1, Inv_of_heap hI rfl ?_ ?_⟩
    · intro i q hq
      simp only []
      rw [hspec, hq]
      by_cases hi : i ∈ handles subs
      · rw [if_pos hi]
        exact ⟨_, rfl, deliver_closed _ q⟩
      · rw [if_neg hi]
        exact ⟨q, rfl, rfl⟩
    · intro i q1 hq1
      simp only [] at hq1
      rw [hspec] at hq1
      by_cases hi : i ∈ handles subs
      · rw [if_pos hi] at hq1
        cases hq : em.chans[i]? with
        | none => rw [hq] at hq1; cases hq1
        | some q =>
          rw [hq] at hq1
          cases hq1
          have hb := hI.bounded i q hq
          refine ⟨by rw [deliver_cap]; exact hb.1, ?_⟩
          have := deliver_length_le { Event := n, Data := d } q (by rw [hb.1]; exact hb.2)
          rw [hb.1] at this
          exact this
      · rw [if_neg hi] at hq1
        exact hI.bounded i q1 hq1

theorem recv_closed {α : Type} (q : Chan α) : (recv q).2.closed = q.closed := by
  unfold recv
  split
  · rfl
  · split <;> rfl

theorem recv_cap {α : Type} (q : Chan α) : (recv q).2.cap = q.cap := by
  unfold recv
  split
  · rfl
  · split <;> rfl

theorem recv_length_le {α : Type} (q : Chan α) : (recv q).2.buf.length ≤ q.buf.length := by
  unfold recv
  split
  · rename_i e rest hb
    rw [hb]
    simp
  · split <;> exact Nat.le_refl _

theorem Receive_getElem? {α : Type} (em : EventManager α) (h i : Nat) :
    (Receive em h).chans[i]? =
      if i = h then (em.chans[i]?).map (fun q => (recv q).2) else em.chans[i]? := by
  unfold Receive
  cases hq : em.chans[h]? with
  | none =>
    by_cases hi : i = h
    · rw [if_pos hi, hi, hq]; rfl
    · rw [if_neg hi]
  | some q =>
    simp only []
    rw [getElem?_set_of_some _ hq]
    by_cases hi : i = h
    · rw [if_pos hi, if_pos hi, hi, hq]; rfl
    · rw [if_neg hi, if_neg hi]

theorem Receive_subscribers {α : Type} (em : EventManager α) (h : Nat) :
    (Receive em h).subscribers = em.subscribers := by
  unfold Receive
  split <;> rfl

theorem Inv_Receive {α : Type} {em : EventManager α} (hI : Inv em) (h : Nat) :
    Inv (Receive em h) := by
  refine Inv_of_heap hI (Receive_subscribers em h) ?_ ?_
  · intro i q hq
    rw [Receive_getElem?, hq]
    by_cases hi : i = h
    · rw [if_pos hi]
      exact ⟨_, rfl, recv_closed q⟩
    · rw [if_neg hi]
      exact ⟨q, rfl, rfl⟩
  · intro i q1 hq1
    rw [Receive_getElem?] at hq1
    by_cases hi : i = h
    · rw [if_pos hi] at hq1
      cases hq : em.chans[i]? with
      | none => rw [hq] at hq1; cases hq1
      | some q =>
        rw [hq] at hq1
        cases hq1
        have hb := hI.bounded i q hq
        exact ⟨by rw [recv_cap]; exact hb.1, Nat.le_trans (recv_length_le q) hb.2⟩
    · rw [if_neg hi] at hq1
      exact hI.bounded i q1 hq1

theorem Inv_step {α : Type} {em : EventManager α} (hI : Inv em) (op : Op α) :
    ∃ em1, step em op = some em1 ∧ Inv em1 := by
  cases op with
  | subscribe c u t => exact ⟨_, rfl, Inv_Subscribe hI c u t⟩
  | unsubscribe c h => exact Inv_Unsubscribe hI c h
  | sendEvent c n d => exact Inv_SendEvent hI c n d
  | receive h => exact ⟨_, rfl, Inv_Receive hI h⟩

theorem Inv_of_step {α : Type} {em em1 : EventManager α} (hI : Inv em) {op : Op α}
    (h : step em op = some em1) : Inv em1 := by
  obtain ⟨em2, h2, hI2⟩ := Inv_step hI op
  rw [h] at h2
  cases h2
  exact hI2

theorem Reachable.inv {α : Type} {em : EventManager α} (hr : Reachable em) : Inv em := by
  induction hr with
  | init => exact Inv_emptyManager α
  | step op _ hstep ih => exact Inv_of_step ih hstep

theorem reachable_run {α : Type} :
    ∀ (ops : List (Op α)) {em em1 : EventManager α}, Reachable em →
      run ops em = some em1 → Reachable em1 := by
  intro ops
  induction ops with
  | nil =>
    intro em em1 hr h
    simp only [GoEventManager.run] at h
    cases h
    exact hr
  | cons op ops ih =>
    intro em em1 hr h
    simp only [GoEventManager.run] at h
    cases hs : step em op with
    | none => rw [hs] at h; cases h
    | some em2 =>
      rw [hs] at h
      exact ih (Reachable.step op hr hs) h

theorem reachable_run_getD {α : Type} (ops : List (Op α)) :
    Reachable ((GoEventManager.run ops (emptyManager α)).getD (emptyManager α)) := by
  cases h : GoEventManager.run ops (emptyManager α) with
  | none => exact Reachable.init
  | some em => exact reachable_run ops Reachable.init h

/-! ## Frame lemmas for one queue -/

theorem subsOf_of_some {α : Type} {em : EventManager α} {c : String}
    {subs : List SubscriberInfo} (hc : em.subscribers c = some subs) : subsOf em c = subs := by
  unfold subsOf
  rw [hc]

theorem subsOf_of_none {α : Type} {em : EventManager α} {c : String}
    (hc : em.subscribers c = none) : subsOf em c = [] := by
  unfold subsOf
  rw [hc]

theorem some_of_mem_subsOf {α : Type} {em : EventManager α} {c : String} {h : Nat}
    (hm : h ∈ handles (subsOf em c)) :
    ∃ subs, em.subscribers c = some subs ∧ h ∈ handles subs := by
  cases hc : em.subscribers c with
  | none =>
    rw [subsOf_of_none hc] at hm
    simp [handles] at hm
  | some subs =>
    rw [subsOf_of_some hc] at hm
    exact ⟨subs, rfl, hm⟩

theorem subsOf_Subscribe {α : Type} (em : EventManager α) (c : String) (u : Int) (t : String)
    (k : String) :
    subsOf (Subscribe em c u t).1 k =
      if k = c then subsOf em c ++ [⟨em.chans.length, u, t⟩] else subsOf em k := by
  by_cases hk : k = c
  · simp [subsOf, Subscribe, setKey, hk]
  · simp [subsOf, Subscribe, setKey, hk]

theorem chans_Subscribe_of_lt {α : Type} (em : EventManager α) (c : String) (u : Int)
    (t : String) {i : Nat} (hi : i < em.chans.length) :
    (Subscribe em c u t).1.chans[i]? = em.chans[i]? := by
  simp only [Subscribe]
  exact List.getElem?_append_left hi

theorem chans_Subscribe_new {α : Type} (em : EventManager α) (c : String) (u : Int)
    (t : String) :
    (Subscribe em c u t).1.chans[(Subscribe em c u t).2]? = some (makeChan α) := by
  simp [Subscribe]

theorem mem_handles_eraseFirst_of_ne {h ch : Nat} (hne : h ≠ ch) :
    ∀ {subs : List SubscriberInfo}, h ∈ handles subs → h ∈ handles (eraseFirst ch subs) := by
  intro subs
  induction subs with
  | nil => intro hm; simp [handles] at hm
  | cons s rest ih =>
    intro hm
    have hm2 : h = s.Channel ∨ h ∈ handles rest := by
      simpa [handles] using hm
    unfold eraseFirst
    by_cases hs : s.Channel = ch
    · rw [if_pos hs]
      rcases hm2 with h1 | h1
      · exact absurd (h1.trans hs) hne
      · exact h1
    · rw [if_neg hs]
      simp only [handles, List.map_cons, List.mem_cons]
      rcases hm2 with h1 | h1
      · exact Or.inl h1
      · exact Or.inr (ih h1)

/-- An `Unsubscribe` of another handle leaves the queue `h` and its registration alone. -/
theorem Unsubscribe_frame {α : Type} {em em1 : EventManager α} (hI : Inv em) {c1 : String}
    {h1 : Nat} (hu : Unsubscribe em c1 h1 = some em1) (c : String) {h : Nat} (hne : h ≠ h1) :
    em1.chans[h]? = em.chans[h]? ∧
      (h ∈ handles (subsOf em c) → h ∈ handles (subsOf em1 c)) := by
  cases hc : em.subscribers c1 with
  | none =>
    rw [Unsubscribe_absent h1 hc] at hu
    cases hu
    exact ⟨rfl, fun x => x⟩
  | some subs =>
    by_cases hm : h1 ∈ handles subs
    · obtain ⟨s, hs, hsh⟩ := exists_of_mem_handles hm
      obtain ⟨q, hq, ho⟩ := hI.isOpen c1 subs s hc hs
      rw [hsh] at hq
      rw [Unsubscribe_match hc hm hq ho] at hu
      cases hu
      refine ⟨?_, fun hin => ?_⟩
      · simp only []
        rw [getElem?_set_of_some _ hq, if_neg hne]
      · by_cases hcc : c = c1
        · rw [hcc] at hin ⊢
          rw [subsOf_of_some hc] at hin
          have hin2 : h ∈ handles (eraseFirst h1 subs) := mem_handles_eraseFirst_of_ne hne hin
          have hlen : ¬ (eraseFirst h1 subs).length = 0 := by
            intro h0
            rw [List.length_eq_zero.mp h0] at hin2
            simp [handles] at hin2
          have : subsOf
              ({ subscribers := registryAfterRemove em.subscribers c1 (eraseFirst h1 subs),
                 chans := em.chans.set h1 { q with closed := true } } : EventManager α) c1 =
              eraseFirst h1 subs := by
            apply subsOf_of_some
            simp only []
            rw [registryAfterRemove_apply, if_pos rfl, if_neg hlen]
          rw [this]
          exact hin2
        · have : subsOf
              ({ subscribers := registryAfterRemove em.subscribers c1 (eraseFirst h1 subs),
                 chans := em.chans.set h1 { q with closed := true } } : EventManager α) c =
              subsOf em c := by
            simp only [subsOf]
            rw [registryAfterRemove_apply, if_neg hcc]
          rw [this]
          exact hin
    · rw [Unsubscribe_nomatch hc hm (hI.nonempty c1 subs hc)] at hu
      cases hu
      exact ⟨rfl, fun x => x⟩

/-- What `SendEvent` does to the queue `h` registered on channel `c`. -/
theorem SendEvent_frame {α : Type} {em : EventManager α} (hI : Inv em) {c : String} {h : Nat}
    (hin : h ∈ handles (subsOf em c)) (c1 : String) (n : String) (d : α) :
    ∃ em1, SendEvent em c1 n d = some em1 ∧ em1.subscribers = em.subscribers ∧
      em1.chans[h]? =
        if c1 = c then (em.chans[h]?).map (deliver { Event := n, Data := d })
        else em.chans[h]? := by
  obtain ⟨subs, hc, hm⟩ := some_of_mem_subsOf hin
  cases hc1 : em.subscribers c1 with
  | none =>
    refine ⟨em, SendEvent_absent n d hc1, rfl, ?_⟩
    have hcc : ¬ c1 = c := by
      intro hh
      rw [hh, hc] at hc1
      cases hc1
    rw [if_neg hcc]
  | some l1 =>
    obtain ⟨chans1, h1, hspec⟩ := SendEvent_spec hI n d hc1
    refine ⟨_, h1, rfl, ?_⟩
    simp only []
    rw [hspec]
    by_cases hcc : c1 = c
    · rw [hcc, hc] at hc1
      cases hc1
      rw [if_pos hm, if_pos hcc]
    · have hnin : h ∉ handles l1 := hI.disjoint c c1 subs l1 (fun hh => hcc hh.symm) hc hc1 h hm
      rw [if_neg hnin, if_neg hcc]

theorem deliver_take {α : Type} (e : EventData α) (evs : List (EventData α)) :
    deliver e { buf := evs.take 1000, cap := 1000, closed := false } =
      { buf := (evs ++ [e]).take 1000, cap := 1000, closed := false } := by
  rcases Nat.lt_or_ge evs.length 1000 with hlt | hge
  · have h1 : evs.take 1000 = evs := List.take_of_length_le (Nat.le_of_lt hlt)
    have h2 : (evs ++ [e]).take 1000 = evs ++ [e] :=
      List.take_of_length_le (by simp; omega)
    rw [h1, h2, deliver_room]
    exact hlt
  · have h2 : (evs ++ [e]).take 1000 = evs.take 1000 := List.take_append_of_le_length hge
    rw [h2, deliver_full]
    simp only [List.length_take]
    omega

theorem recvN_eq {α : Type} :
    ∀ (n : Nat) (q : Chan α), recvN n q =
      (q.buf.map RecvResult.value ++
        List.replicate n (if q.closed then RecvResult.closed else RecvResult.blocks)).take n := by
  intro n
  induction n with
  | zero => intro q; simp [recvN]
  | succ n ih =>
    intro q
    cases hb : q.buf with
    | nil =>
      have h1 : recv q = (if q.closed then RecvResult.closed else RecvResult.blocks, q) := by
        unfold recv
        rw [hb]
        simp only []
        split <;> rfl
      simp only [recvN, h1, ih q, hb, List.map_nil, List.nil_append, List.replicate_succ,
        List.take_succ_cons, List.take_replicate, Nat.min_self]
    | cons e rest =>
      have h1 : recv q = (RecvResult.value e, { q with buf := rest }) := by
        unfold recv
        rw [hb]
      simp only [recvN, h1, ih, List.map_cons, List.cons_append, List.take_succ_cons,
        List.replicate_succ]
      congr 1
      rw [List.take_append_eq_append_take, List.take_append_eq_append_take]
      congr 1
      simp only [List.length_map, List.take_succ_cons]
      rcases Nat.lt_or_ge n (rest.length + 1) with hlt | hge
      · have h0 : n - rest.length = 0 := by omega
        rw [h0]
        simp
      · have h0 : n - rest.length = (n - rest.length - 1) + 1 := by omega
        rw [h0, List.take_succ_cons, List.take_replicate, List.take_replicate]
        rw [← List.replicate_succ]
        congr 1
        omega

/-- The fact carried along a call sequence for C3: the handle `h` is registered on `c` and
its queue holds the first 1000 of the events `evs` published on `c` so far. -/
theorem step_holds {α : Type} {em : EventManager α} (c : String) (h : Nat)
    (evs : List (EventData α)) (hI : Inv em) (hin : h ∈ handles (subsOf em c))
    (hq : em.chans[h]? = some { buf := evs.take 1000, cap := 1000, closed := false })
    (op : Op α) (ht : touches h op = false) :
    ∃ em1, step em op = some em1 ∧ Inv em1 ∧ h ∈ handles (subsOf em1 c) ∧
      em1.chans[h]? =
        some { buf := (evs ++ sentOn c [op]).take 1000, cap := 1000, closed := false } := by
  cases op with
  | subscribe c1 u t =>
    refine ⟨_, rfl, Inv_Subscribe hI c1 u t, ?_, ?_⟩
    · rw [subsOf_Subscribe]
      by_cases hk : c = c1
      · rw [if_pos hk, ← hk]
        simp only [handles, List.map_append, List.mem_append]
        exact Or.inl hin
      · rw [if_neg hk]
        exact hin
    · rw [chans_Subscribe_of_lt em c1 u t (hI.subsOf_lt c hin), hq]
      simp [sentOn]
  | unsubscribe c1 h1 =>
    have hne : h ≠ h1 := by
      intro hh
      simp [touches, hh] at ht
    obtain ⟨em1, hu, hI1⟩ := Inv_Unsubscribe hI c1 h1
    obtain ⟨f1, f2⟩ := Unsubscribe_frame hI hu c hne
    refine ⟨em1, hu, hI1, f2 hin, ?_⟩
    rw [f1, hq]
    simp [sentOn]
  | sendEvent c1 n d =>
    obtain ⟨em1, hs, hsub, hch⟩ := SendEvent_frame hI hin c1 n d
    have hI1 : Inv em1 := by
      obtain ⟨em2, hs2, hI2⟩ := Inv_SendEvent hI c1 n d
      rw [hs] at hs2
      cases hs2
      exact hI2
    refine ⟨em1, hs, hI1, ?_, ?_⟩
    · simp only [subsOf, hsub] at hin ⊢
      exact hin
    · rw [hch, hq]
      by_cases hcc : c1 = c
      · rw [if_pos hcc]
        simp only [Option.map_some', sentOn, if_pos hcc]
        rw [deliver_take]
      · rw [if_neg hcc]
        simp [sentOn, hcc]
  | receive h1 =>
    have hne : h ≠ h1 := by
      intro hh
      simp [touches, hh] at ht
    refine ⟨_, rfl, Inv_Receive hI h1, ?_, ?_⟩
    · simp only [subsOf, Receive_subscribers] at hin ⊢
      exact hin
    · rw [Receive_getElem?, if_neg hne, hq]
      simp [sentOn]

theorem sentOn_cons {α : Type} (c : String) (op : Op α) (ops : List (Op α)) :
    sentOn c (op :: ops) = sentOn c [op] ++ sentOn c ops := by
  cases op with
  | subscribe c1 u t => simp [sentOn]
  | unsubscribe c1 h1 => simp [sentOn]
  | sendEvent c1 n d =>
    by_cases hcc : c1 = c <;> simp [sentOn, hcc]
  | receive h1 => simp [sentOn]

theorem run_holds {α : Type} (c : String) (h : Nat) :
    ∀ (ops : List (Op α)) (em : EventManager α) (evs : List (EventData α)),
      Inv em → h ∈ handles (subsOf em c) →
      em.chans[h]? = some { buf := evs.take 1000, cap := 1000, closed := false } →
      (∀ op, op ∈ ops → touches h op = false) →
      ∃ em2, run ops em = some em2 ∧ Inv em2 ∧ h ∈ handles (subsOf em2 c) ∧
        em2.chans[h]? =
          some { buf := (evs ++ sentOn c ops).take 1000, cap := 1000, closed := false } := by
  intro ops
  induction ops with
  | nil =>
    intro em evs hI hin hq _
    refine ⟨em, rfl, hI, hin, ?_⟩
    rw [hq]
    simp [sentOn]
  | cons op ops ih =>
    intro em evs hI hin hq ht
    obtain ⟨em1, hs, hI1, hin1, hq1⟩ :=
      step_holds c h evs hI hin hq op (ht op (List.mem_cons_self _ _))
    obtain ⟨em2, hr, hI2, hin2, hq2⟩ :=
      ih em1 (evs ++ sentOn c [op]) hI1 hin1 hq1
        (fun o ho => ht o (List.mem_cons_of_mem _ ho))
    refine ⟨em2, ?_, hI2, hin2, ?_⟩
    · simp only [run, hs, hr]
    · rw [hq2, sentOn_cons c op ops, List.append_assoc]

/-! ## Closed queues stay closed and unregistered -/

theorem closed_step {α : Type} {em em1 : EventManager α} (hI : Inv em) {op : Op α}
    (hs : step em op = some em1) {h : Nat} {q : Chan α} (hq : em.chans[h]? = some q)
    (hcl : q.closed = true) : ∃ q1, em1.chans[h]? = some q1 ∧ q1.closed = true := by
  have hlt : h < em.chans.length := by
    rcases Nat.lt_or_ge h em.chans.length with h1 | h1
    · exact h1
    · rw [List.getElem?_eq_none h1] at hq
      cases hq
  cases op with
  | subscribe c u t =>
    simp only [step] at hs
    cases hs
    rw [chans_Subscribe_of_lt em c u t hlt]
    exact ⟨q, hq, hcl⟩
  | unsubscribe c h1 =>
    simp only [step] at hs
    by_cases hne : h = h1
    · cases hc : em.subscribers c with
      | none =>
        rw [Unsubscribe_absent h1 hc] at hs
        cases hs
        exact ⟨q, hq, hcl⟩
      | some subs =>
        by_cases hm : h1 ∈ handles subs
        · obtain ⟨s, hsm, hsh⟩ := exists_of_mem_handles hm
          obtain ⟨q2, hq2, ho⟩ := hI.isOpen c subs s hc hsm
          rw [hsh, ← hne, hq] at hq2
          cases hq2
          rw [hcl] at ho
          cases ho
        · rw [Unsubscribe_nomatch hc hm (hI.nonempty c subs hc)] at hs
          cases hs
          exact ⟨q, hq, hcl⟩
    · rw [(Unsubscribe_frame hI hs c hne).1]
      exact ⟨q, hq, hcl⟩
  | sendEvent c n d =>
    simp only [step] at hs
    cases hc : em.subscribers c with
    | none =>
      rw [SendEvent_absent n d hc] at hs
      cases hs
      exact ⟨q, hq, hcl⟩
    | some subs =>
      obtain ⟨chans1, h1, hspec⟩ := SendEvent_spec hI n d hc
      rw [h1] at hs
      cases hs
      simp only []
      rw [hspec, hq]
      by_cases hi : h ∈ handles subs
      · rw [if_pos hi]
        exact ⟨_, rfl, (deliver_closed _ q).trans hcl⟩
      · rw [if_neg hi]
        exact ⟨q, rfl, hcl⟩
  | receive h1 =>
    simp only [step] at hs
    cases hs
    rw [Receive_getElem?, hq]
    by_cases hi : h = h1
    · rw [if_pos hi]
      exact ⟨_, rfl, (recv_closed q).trans hcl⟩
    · rw [if_neg hi]
      exact ⟨q, rfl, hcl⟩

theorem closed_run {α : Type} (h : Nat) :
    ∀ (ops : List (Op α)) (em em2 : EventManager α) (q : Chan α), Inv em →
      run ops em = some em2 → em.chans[h]? = some q → q.closed = true →
      Inv em2 ∧ ∃ q2, em2.chans[h]? = some q2 ∧ q2.closed = true := by
  intro ops
  induction ops with
  | nil =>
    intro em em2 q hI hr hq hcl
    simp only [run] at hr
    cases hr
    exact ⟨hI, q, hq, hcl⟩
  | cons op ops ih =>
    intro em em2 q hI hr hq hcl
    simp only [run] at hr
    cases hs : step em op with
    | none => rw [hs] at hr; cases hr
    | some em1 =>
      rw [hs] at hr
      obtain ⟨q1, hq1, hcl1⟩ := closed_step hI hs hq hcl
      exact ih em1 em2 q1 (Inv_of_step hI hs) hr hq1 hcl1

/-- In a well-formed state a closed queue is on no subscriber list. -/
theorem closed_not_registered {α : Type} {em : EventManager α} (hI : Inv em) {h : Nat}
    {q : Chan α} (hq : em.chans[h]? = some q) (hcl : q.closed = true) (c : String) :
    h ∉ handles (subsOf em c) := by
  intro hin
  obtain ⟨subs, hc, hm⟩ := some_of_mem_subsOf hin
  obtain ⟨s, hsm, hsh⟩ := exists_of_mem_handles hm
  obtain ⟨q2, hq2, ho⟩ := hI.isOpen c subs s hc hsm
  rw [hsh, hq] at hq2
  cases hq2
  rw [hcl] at ho
  cases ho

theorem eraseFirst_split {h : Nat} :
    ∀ {subs : List SubscriberInfo}, h ∈ handles subs →
      ∃ pre s post, subs = pre ++ s :: post ∧ s.Channel = h ∧
        (∀ r, r ∈ pre → r.Channel ≠ h) ∧ eraseFirst h subs = pre ++ post := by
  intro subs
  induction subs with
  | nil => intro hm; simp [handles] at hm
  | cons s rest ih =>
    intro hm
    by_cases hs : s.Channel = h
    · refine ⟨[], s, rest, rfl, hs, ?_, ?_⟩
      · intro r hr
        cases hr
      · simp [eraseFirst, hs]
    · have hs2 : ¬ h = s.Channel := fun hh => hs hh.symm
      have hm2 : h ∈ handles rest := by
        simpa [handles, hs2] using hm
      obtain ⟨pre, s1, post, h1, h2, h3, h4⟩ := ih hm2
      refine ⟨s :: pre, s1, post, ?_, h2, ?_, ?_⟩
      · rw [h1]
        rfl
      · intro r hr
        rcases List.mem_cons.mp hr with h5 | h5
        · rw [h5]
          exact hs
        · exact h3 r h5
      · simp only [eraseFirst, if_neg hs, h4, List.cons_append]

/-! ## The claims -/

/-- C1 (fan-out): in every state reachable from the empty registry, for every channel `c`
that has a subscriber list, `SendEvent c name payload` returns, and every subscriber of `c`
whose queue holds fewer than 1000 events has afterwards the same queue with exactly the one
event `(name, payload)` appended at the tail; what was buffered stays in place and in order. -/
theorem C1_fan_out {α : Type} (em : EventManager α) (hr : Reachable em) (c : String)
    (subs : List SubscriberInfo) (hc : em.subscribers c = some subs) (_hK : 1 ≤ subs.length)
    (name : String) (payload : α) :
    ∃ em1, SendEvent em c name payload = some em1 ∧
      ∀ s, s ∈ subs → ∃ q, em.chans[s.Channel]? = some q ∧
        (q.buf.length < 1000 →
          em1.chans[s.Channel]? =
            some { q with buf := q.buf ++ [{ Event := name, Data := payload }] }) := by
  have hI := hr.inv
  obtain ⟨chans1, h1, hspec⟩ := SendEvent_spec hI name payload hc
  refine ⟨_, h1, fun s hs => ?_⟩
  obtain ⟨q, hq, _⟩ := hI.isOpen c subs s hc hs
  refine ⟨q, hq, fun hlt => ?_⟩
  have hcap := (hI.bounded _ q hq).1
  simp only []
  rw [hspec, if_pos (mem_handles_of_mem hs), hq]
  simp only [Option.map_some']
  rw [deliver_room _ q (by rw [hcap]; exact hlt)]

/-- Witness of C1: the three subscribers of the repository's test all receive the event. -/
theorem C1_fan_out_witness :
    Reachable threeSubscribers ∧
    threeSubscribers.subscribers "test-channel" =
      some [⟨0, 1, "test-tenant"⟩, ⟨1, 1, "test-tenant"⟩, ⟨2, 1, "test-tenant"⟩] ∧
    ∃ em1, SendEvent threeSubscribers "test-channel" "test-event" "test-data" = some em1 ∧
      ∀ s, s ∈ [(⟨0, 1, "test-tenant"⟩ : SubscriberInfo), ⟨1, 1, "test-tenant"⟩,
          ⟨2, 1, "test-tenant"⟩] →
        ∃ q, threeSubscribers.chans[s.Channel]? = some q ∧
          (q.buf.length < 1000 →
            em1.chans[s.Channel]? =
              some { q with buf := q.buf ++ [{ Event := "test-event", Data := "test-data" }] }) :=
  have hr : Reachable threeSubscribers :=
    Reachable.step (Op.subscribe "test-channel" 1 "test-tenant")
      (Reachable.step (Op.subscribe "test-channel" 1 "test-tenant")
        (Reachable.step (Op.subscribe "test-channel" 1 "test-tenant") Reachable.init rfl) rfl) rfl
  ⟨hr, rfl, C1_fan_out threeSubscribers hr "test-channel" _ rfl (by decide)
    "test-event" "test-data"⟩

/-- C2 (overflow policy): in every reachable state in which a subscriber `s` of channel `c`
has a queue already holding 1000 events, `SendEvent c name payload` returns, the queue of `s`
is exactly as before, and every subscriber listed before `s` or after `s` whose queue is not
full has the event appended at the tail of its queue. -/
theorem C2_overflow_drop {α : Type} (em : EventManager α) (hr : Reachable em) (c : String)
    (pre post : List SubscriberInfo) (s : SubscriberInfo) (q : Chan α)
    (hc : em.subscribers c = some (pre ++ s :: post))
    (hq : em.chans[s.Channel]? = some q) (hfull : q.buf.length = 1000)
    (name : String) (payload : α) :
    ∃ em1, SendEvent em c name payload = some em1 ∧
      em1.chans[s.Channel]? = some q ∧
      ∀ t, t ∈ pre ∨ t ∈ post → ∃ qt, em.chans[t.Channel]? = some qt ∧
        (qt.buf.length < 1000 →
          em1.chans[t.Channel]? =
            some { qt with buf := qt.buf ++ [{ Event := name, Data := payload }] }) := by
  have hI := hr.inv
  obtain ⟨chans1, h1, hspec⟩ := SendEvent_spec hI name payload hc
  have hs : s ∈ pre ++ s :: post := by simp
  refine ⟨_, h1, ?_, fun t ht => ?_⟩
  · have hcap := (hI.bounded _ q hq).1
    simp only []
    rw [hspec, if_pos (mem_handles_of_mem hs), hq]
    simp only [Option.map_some']
    rw [deliver_full _ q (by rw [hcap, hfull]; exact Nat.lt_irrefl _)]
  · have htm : t ∈ pre ++ s :: post := by
      rcases ht with ht | ht
      · exact List.mem_append_left _ ht
      · exact List.mem_append_right _ (List.mem_cons_of_mem _ ht)
    obtain ⟨qt, hqt, _⟩ := hI.isOpen c _ t hc htm
    refine ⟨qt, hqt, fun hlt => ?_⟩
    have hcap := (hI.bounded _ qt hqt).1
    simp only []
    rw [hspec, if_pos (mem_handles_of_mem htm), hqt]
    simp only [Option.map_some']
    rw [deliver_room _ qt (by rw [hcap]; exact hlt)]

/-- Witness of C2: a first subscriber that never read 1000 events, and a second one behind it
in the list. -/
theorem C2_overflow_drop_witness :
    Reachable overflowState ∧
    overflowState.subscribers "c" = some ([] ++ ⟨0, 1, "t"⟩ :: [⟨1, 2, "t"⟩]) ∧
    overflowState.chans[0]? = some ⟨List.replicate 1000 ⟨"e", "d"⟩, 1000, false⟩ ∧
    (List.replicate 1000 (⟨"e", "d"⟩ : EventData String)).length = 1000 ∧
    ∃ em1, SendEvent overflowState "c" "late" "x" = some em1 ∧
      em1.chans[0]? = some ⟨List.replicate 1000 ⟨"e", "d"⟩, 1000, false⟩ ∧
      ∀ t, t ∈ ([] : List SubscriberInfo) ∨ t ∈ [(⟨1, 2, "t"⟩ : SubscriberInfo)] →
        ∃ qt, overflowState.chans[t.Channel]? = some qt ∧
          (qt.buf.length < 1000 →
            em1.chans[t.Channel]? =
              some { qt with buf := qt.buf ++ [{ Event := "late", Data := "x" }] }) :=
  ⟨reachable_run_getD overflowOps, by rfl, by rfl, by simp,
    C2_overflow_drop overflowState (reachable_run_getD overflowOps) "c" [] [⟨1, 2, "t"⟩]
      ⟨0, 1, "t"⟩ ⟨List.replicate 1000 ⟨"e", "d"⟩, 1000, false⟩ (by rfl) (by rfl) (by simp)
      "late" "x"⟩

/-- C3 (first N events, in order): let `h` be the handle returned by `Subscribe c u t` in a
reachable state.  After any finite sequence of further calls (`Subscribe`, `Unsubscribe`,
`SendEvent`, reads of other queues) that never unsubscribes `h` and never reads from `h`, the
sequence has run to its end, `h` is still open and its queue holds exactly the first
`min N 1000` events published on `c`, in publication order, with name and payload unchanged,
where `N` is the number of `SendEvent` calls on `c`; reading `h` that many times then yields
exactly these events in that order. -/
theorem C3_first_events_in_order {α : Type} (em : EventManager α) (hr : Reachable em)
    (c : String) (u : Int) (t : String) (ops : List (Op α))
    (hnot : ∀ op, op ∈ ops → touches (Subscribe em c u t).2 op = false) :
    ∃ em2 q, run ops (Subscribe em c u t).1 = some em2 ∧
      em2.chans[(Subscribe em c u t).2]? = some q ∧
      q = { buf := (sentOn c ops).take 1000, cap := 1000, closed := false } ∧
      q.buf.length = min (sentOn c ops).length 1000 ∧
      recvN q.buf.length q = ((sentOn c ops).take 1000).map RecvResult.value := by
  have hI := Inv_Subscribe hr.inv c u t
  have hin : (Subscribe em c u t).2 ∈ handles (subsOf (Subscribe em c u t).1 c) := by
    rw [subsOf_Subscribe, if_pos rfl]
    simp [handles, Subscribe]
  have hq : (Subscribe em c u t).1.chans[(Subscribe em c u t).2]? =
      some { buf := ([] : List (EventData α)).take 1000, cap := 1000, closed := false } := by
    rw [chans_Subscribe_new]
    rfl
  obtain ⟨em2, hrun, _, _, hq2⟩ := run_holds c _ ops _ [] hI hin hq hnot
  rw [List.nil_append] at hq2
  refine ⟨em2, _, hrun, hq2, rfl, ?_, ?_⟩
  · simp only [List.length_take]
    exact Nat.min_comm _ _
  · rw [recvN_eq]
    simp only []
    rw [List.take_append_eq_append_take]
    simp

/-- Witness of C3: the subscriber of the repository's test, two events on its channel and
traffic on another channel. -/
theorem C3_first_events_in_order_witness :
    Reachable (emptyManager String) ∧
    (∀ op, op ∈ laterOps →
      touches (Subscribe (emptyManager String) "test-channel" 1 "test-tenant").2 op = false) ∧
    ∃ em2 q,
      run laterOps (Subscribe (emptyManager String) "test-channel" 1 "test-tenant").1 = some em2 ∧
      em2.chans[(Subscribe (emptyManager String) "test-channel" 1 "test-tenant").2]? = some q ∧
      q = { buf := (sentOn "test-channel" laterOps).take 1000, cap := 1000, closed := false } ∧
      q.buf.length = min (sentOn "test-channel" laterOps).length 1000 ∧
      recvN q.buf.length q =
        ((sentOn "test-channel" laterOps).take 1000).map RecvResult.value :=
  ⟨Reachable.init, by decide,
    C3_first_events_in_order (emptyManager String) Reachable.init "test-channel" 1
      "test-tenant" laterOps (by decide)⟩

/-- C4: in every reachable state, for every handle `h` registered on channel `c`,
`Unsubscribe c h` returns; afterwards the queue `h` is closed and `h` is not in the list of
`c`; and in every state reached later by any further calls, `h` is still not in the list of
`c` and `SendEvent c ...` returns and leaves the queue `h` exactly as it was. -/
theorem C4_unsubscribe_detaches {α : Type} (em : EventManager α) (hr : Reachable em)
    (c : String) (h : Nat) (subs : List SubscriberInfo) (hc : em.subscribers c = some subs)
    (hm : h ∈ handles subs) :
    ∃ em1, Unsubscribe em c h = some em1 ∧
      (∃ q1, em1.chans[h]? = some q1 ∧ q1.closed = true) ∧
      h ∉ handles (subsOf em1 c) ∧
      ∀ (ops : List (Op α)) (em2 : EventManager α), run ops em1 = some em2 →
        h ∉ handles (subsOf em2 c) ∧
        ∀ (name : String) (payload : α),
          ∃ em3, SendEvent em2 c name payload = some em3 ∧ em3.chans[h]? = em2.chans[h]? := by
  have hI := hr.inv
  obtain ⟨em1, hu, hI1⟩ := Inv_Unsubscribe hI c h
  obtain ⟨s, hsm, hsh⟩ := exists_of_mem_handles hm
  obtain ⟨q, hq, ho⟩ := hI.isOpen c subs s hc hsm
  rw [hsh] at hq
  have hcl : ∃ q1, em1.chans[h]? = some q1 ∧ q1.closed = true := by
    rw [Unsubscribe_match hc hm hq ho] at hu
    cases hu
    simp only []
    rw [getElem?_set_of_some _ hq, if_pos rfl]
    exact ⟨_, rfl, rfl⟩
  obtain ⟨q1, hq1, hcl1⟩ := hcl
  refine ⟨em1, hu, ⟨q1, hq1, hcl1⟩, closed_not_registered hI1 hq1 hcl1 c, ?_⟩
  intro ops em2 hrun
  obtain ⟨hI2, q2, hq2, hcl2⟩ := closed_run h ops em1 em2 q1 hI1 hrun hq1 hcl1
  have hnot := closed_not_registered hI2 hq2 hcl2 c
  refine ⟨hnot, fun name payload => ?_⟩
  cases hc2 : em2.subscribers c with
  | none => exact ⟨em2, SendEvent_absent name payload hc2, rfl⟩
  | some l =>
    obtain ⟨chans1, h1, hspec⟩ := SendEvent_spec hI2 name payload hc2
    refine ⟨_, h1, ?_⟩
    rw [subsOf_of_some hc2] at hnot
    simp only []
    rw [hspec, if_neg hnot]

/-- Witness of C4: the second of the three subscribers of the repository's test. -/
theorem C4_unsubscribe_detaches_witness :
    Reachable threeSubscribers ∧
    threeSubscribers.subscribers "test-channel" =
      some [⟨0, 1, "test-tenant"⟩, ⟨1, 1, "test-tenant"⟩, ⟨2, 1, "test-tenant"⟩] ∧
    1 ∈ handles [⟨0, 1, "test-tenant"⟩, ⟨1, 1, "test-tenant"⟩, ⟨2, 1, "test-tenant"⟩] ∧
    ∃ em1, Unsubscribe threeSubscribers "test-channel" 1 = some em1 ∧
      (∃ q1, em1.chans[1]? = some q1 ∧ q1.closed = true) ∧
      1 ∉ handles (subsOf em1 "test-channel") ∧
      ∀ (ops : List (Op String)) (em2 : EventManager String), run ops em1 = some em2 →
        1 ∉ handles (subsOf em2 "test-channel") ∧
        ∀ (name : String) (payload : String),
          ∃ em3, SendEvent em2 "test-channel" name payload = some em3 ∧
            em3.chans[1]? = em2.chans[1]? :=
  have hr : Reachable threeSubscribers :=
    Reachable.step (Op.subscribe "test-channel" 1 "test-tenant")
      (Reachable.step (Op.subscribe "test-channel" 1 "test-tenant")
        (Reachable.step (Op.subscribe "test-channel" 1 "test-tenant") Reachable.init rfl) rfl) rfl
  ⟨hr, rfl, by decide,
    C4_unsubscribe_detaches threeSubscribers hr "test-channel" 1 _ rfl (by decide)⟩

/-- C5, as amended: in every reachable state, for every handle `h` registered on channel
`c`, `Unsubscribe c h` returns and closes the queue with its buffer untouched; the reads of
`h` performed afterwards never block: they first yield the events that were buffered at that
moment, in order, and every read after those returns the closed indication; when nothing was
buffered every read returns the closed indication. -/
theorem C5_reads_after_unsubscribe {α : Type} (em : EventManager α) (hr : Reachable em)
    (c : String) (h : Nat) (subs : List SubscriberInfo) (hc : em.subscribers c = some subs)
    (hm : h ∈ handles subs) :
    ∃ em1 q, Unsubscribe em c h = some em1 ∧ em.chans[h]? = some q ∧
      em1.chans[h]? = some { q with closed := true } ∧
      (∀ n, recvN n { q with closed := true } =
        (q.buf.map RecvResult.value ++ List.replicate n RecvResult.closed).take n) ∧
      (∀ n r, r ∈ recvN n { q with closed := true } → r ≠ RecvResult.blocks) ∧
      (q.buf = [] → ∀ n, recvN n { q with closed := true } =
        List.replicate n RecvResult.closed) := by
  have hI := hr.inv
  obtain ⟨s, hsm, hsh⟩ := exists_of_mem_handles hm
  obtain ⟨q, hq, ho⟩ := hI.isOpen c subs s hc hsm
  rw [hsh] at hq
  have heq : ∀ n, recvN n { q with closed := true } =
      (q.buf.map RecvResult.value ++ List.replicate n RecvResult.closed).take n := by
    intro n
    rw [recvN_eq]
    simp
  refine ⟨_, q, Unsubscribe_match hc hm hq ho, hq, ?_, heq, ?_, ?_⟩
  · simp only []
    rw [getElem?_set_of_some _ hq, if_pos rfl]
  · intro n r hrm hb
    rw [heq n] at hrm
    have hrm2 := List.mem_of_mem_take hrm
    rw [hb] at hrm2
    rcases List.mem_append.mp hrm2 with h1 | h1
    · simp at h1
    · have := List.eq_of_mem_replicate h1
      cases this
  · intro hnil n
    rw [heq n, hnil]
    simp

/-- Witness of C5 as amended: one event is buffered when the subscriber is unsubscribed. -/
theorem C5_reads_after_unsubscribe_witness :
    Reachable bufferedState ∧
    bufferedState.subscribers "c" = some [⟨0, 1, "t"⟩] ∧
    0 ∈ handles [⟨0, 1, "t"⟩] ∧
    ∃ em1 q, Unsubscribe bufferedState "c" 0 = some em1 ∧ bufferedState.chans[0]? = some q ∧
      em1.chans[0]? = some { q with closed := true } ∧
      (∀ n, recvN n { q with closed := true } =
        (q.buf.map RecvResult.value ++ List.replicate n RecvResult.closed).take n) ∧
      (∀ n r, r ∈ recvN n { q with closed := true } → r ≠ RecvResult.blocks) ∧
      (q.buf = [] → ∀ n, recvN n { q with closed := true } =
        List.replicate n RecvResult.closed) :=
  ⟨reachable_run_getD _, rfl, by decide,
    C5_reads_after_unsubscribe bufferedState (reachable_run_getD _) "c" 0 _ rfl (by decide)⟩

/-- Counterexample to C5 as stated: a subscriber with one buffered event is unsubscribed;
the first read afterwards yields that event, only the second read returns the closed
indication. -/
theorem C5_counterexample :
    Reachable bufferedState ∧
    bufferedState.subscribers "c" = some [⟨0, 1, "t"⟩] ∧
    (Unsubscribe bufferedState "c" 0).map (fun em1 => em1.chans.map (fun q => recvN 2 q)) =
      some [[RecvResult.value ⟨"e", "d"⟩, RecvResult.closed]] :=
  ⟨reachable_run_getD _, rfl, by decide⟩

/-- C6: in every reachable state in which channel `c` has exactly one subscriber, with handle
`h`, `Unsubscribe c h` returns and removes the key `c` from the registry (absent, not mapped
to an empty list), and a `SendEvent c name payload` after it returns the state unchanged. -/
theorem C6_last_unsubscribe_removes_key {α : Type} (em : EventManager α) (hr : Reachable em)
    (c : String) (s : SubscriberInfo) (hc : em.subscribers c = some [s]) :
    ∃ em1, Unsubscribe em c s.Channel = some em1 ∧ em1.subscribers c = none ∧
      ∀ (name : String) (payload : α), SendEvent em1 c name payload = some em1 := by
  have hI := hr.inv
  obtain ⟨q, hq, ho⟩ := hI.isOpen c [s] s hc (List.mem_singleton.mpr rfl)
  have hm : s.Channel ∈ handles [s] := mem_handles_of_mem (List.mem_singleton.mpr rfl)
  have hnone : registryAfterRemove em.subscribers c (eraseFirst s.Channel [s]) c = none := by
    rw [registryAfterRemove_apply, if_pos rfl]
    simp [eraseFirst]
  refine ⟨_, Unsubscribe_match hc hm hq ho, hnone, fun name payload => ?_⟩
  exact SendEvent_absent name payload hnone

/-- Witness of C6: the state of the repository's `TestEventManager_Unsubscribe` after its
`Subscribe`. -/
theorem C6_last_unsubscribe_removes_key_witness :
    Reachable (Subscribe (emptyManager String) "test-channel" 1 "test-tenant").1 ∧
    (Subscribe (emptyManager String) "test-channel" 1 "test-tenant").1.subscribers
      "test-channel" = some [⟨0, 1, "test-tenant"⟩] ∧
    ∃ em1, Unsubscribe (Subscribe (emptyManager String) "test-channel" 1 "test-tenant").1
        "test-channel" (SubscriberInfo.mk 0 1 "test-tenant").Channel = some em1 ∧
      em1.subscribers "test-channel" = none ∧
      ∀ (name : String) (payload : String), SendEvent em1 "test-channel" name payload = some em1 :=
  have hr : Reachable (Subscribe (emptyManager String) "test-channel" 1 "test-tenant").1 :=
    Reachable.step (Op.subscribe "test-channel" 1 "test-tenant") Reachable.init rfl
  ⟨hr, rfl, C6_last_unsubscribe_removes_key _ hr "test-channel" ⟨0, 1, "test-tenant"⟩ rfl⟩

/-- C7: in every reachable state, if `c` is not a key of the registry, or `c` is a key and
the handle `h` does not occur in its list (also when `h` is registered on another channel),
`Unsubscribe c h` returns the state unchanged: same keys, same lists, no queue closed, no
queue contents changed. -/
theorem C7_unsubscribe_unmatched_noop {α : Type} (em : EventManager α) (hr : Reachable em)
    (c : String) (h : Nat)
    (hno : em.subscribers c = none ∨
      ∃ subs, em.subscribers c = some subs ∧ h ∉ handles subs) :
    Unsubscribe em c h = some em := by
  rcases hno with hc | ⟨subs, hc, hm⟩
  · exact Unsubscribe_absent h hc
  · exact Unsubscribe_nomatch hc hm (hr.inv.nonempty c subs hc)

/-- Witness of C7: handle 0 is registered on channel `a` and is unsubscribed from `b`. -/
theorem C7_unsubscribe_unmatched_noop_witness :
    Reachable twoChannels ∧
    (twoChannels.subscribers "b" = none ∨
      ∃ subs, twoChannels.subscribers "b" = some subs ∧ 0 ∉ handles subs) ∧
    0 ∈ handles (subsOf twoChannels "a") ∧
    Unsubscribe twoChannels "b" 0 = some twoChannels :=
  have hr : Reachable twoChannels :=
    Reachable.step (Op.subscribe "b" 2 "t")
      (Reachable.step (Op.subscribe "a" 1 "t") Reachable.init rfl) rfl
  have hno : twoChannels.subscribers "b" = none ∨
      ∃ subs, twoChannels.subscribers "b" = some subs ∧ 0 ∉ handles subs :=
    Or.inr ⟨[⟨1, 2, "t"⟩], rfl, by decide⟩
  ⟨hr, hno, by decide, C7_unsubscribe_unmatched_noop twoChannels hr "b" 0 hno⟩

/-- C8, as amended: for every registry state (also one in which the same handle `h` occurs
several times in the list of `c`) where `h` occurs in the list of `c` and the queue `h` is
open, `Unsubscribe c h` returns and the list of `c` is then exactly the old list with the
first record whose queue is `h` erased: the old list is `pre ++ s :: post` with `s` the first
record of handle `h`, the new one is `pre ++ post`, so the length drops by exactly 1 and every
other record (a later record of the same handle too) is kept, with its userID and tenantID, in
its original relative order; the lists of all other channels are unchanged. -/
theorem C8_first_match_removal {α : Type} (em : EventManager α) (c : String) (h : Nat)
    (subs : List SubscriberInfo) (q : Chan α) (hc : em.subscribers c = some subs)
    (hm : h ∈ handles subs) (hq : em.chans[h]? = some q) (ho : q.closed = false) :
    ∃ em1, Unsubscribe em c h = some em1 ∧
      subsOf em1 c = eraseFirst h subs ∧
      (∃ pre s post, subs = pre ++ s :: post ∧ s.Channel = h ∧
        (∀ r, r ∈ pre → r.Channel ≠ h) ∧ subsOf em1 c = pre ++ post) ∧
      (subsOf em1 c).length + 1 = subs.length ∧
      ∀ k, k ≠ c → em1.subscribers k = em.subscribers k := by
  have hsub : subsOf
      ({ subscribers := registryAfterRemove em.subscribers c (eraseFirst h subs),
         chans := em.chans.set h { q with closed := true } } : EventManager α) c =
      eraseFirst h subs := by
    simp only [subsOf]
    rw [registryAfterRemove_apply, if_pos rfl]
    by_cases h0 : (eraseFirst h subs).length = 0
    · rw [if_pos h0, List.length_eq_zero.mp h0]
    · rw [if_neg h0]
  obtain ⟨pre, s, post, h1, h2, h3, h4⟩ := eraseFirst_split hm
  refine ⟨_, Unsubscribe_match hc hm hq ho, hsub, ⟨pre, s, post, h1, h2, h3, ?_⟩, ?_, ?_⟩
  · rw [hsub, h4]
  · rw [hsub]
    exact length_eraseFirst hm
  · intro k hk
    simp only []
    rw [registryAfterRemove_apply, if_neg hk]

/-- Witness of C8 as amended: handle 0 is listed first and third; only the first record goes. -/
theorem C8_first_match_removal_witness :
    dupOpen.subscribers "c" = some [⟨0, 1, "t"⟩, ⟨1, 2, "t"⟩, ⟨0, 3, "u"⟩] ∧
    0 ∈ handles [⟨0, 1, "t"⟩, ⟨1, 2, "t"⟩, ⟨0, 3, "u"⟩] ∧
    dupOpen.chans[0]? = some (makeChan String) ∧ (makeChan String).closed = false ∧
    ∃ em1, Unsubscribe dupOpen "c" 0 = some em1 ∧
      subsOf em1 "c" = eraseFirst 0 [⟨0, 1, "t"⟩, ⟨1, 2, "t"⟩, ⟨0, 3, "u"⟩] ∧
      (∃ pre s post, [(⟨0, 1, "t"⟩ : SubscriberInfo), ⟨1, 2, "t"⟩, ⟨0, 3, "u"⟩] =
          pre ++ s :: post ∧ s.Channel = 0 ∧
        (∀ r, r ∈ pre → r.Channel ≠ 0) ∧ subsOf em1 "c" = pre ++ post) ∧
      (subsOf em1 "c").length + 1 =
        [(⟨0, 1, "t"⟩ : SubscriberInfo), ⟨1, 2, "t"⟩, ⟨0, 3, "u"⟩].length ∧
      ∀ k, k ≠ "c" → em1.subscribers k = dupOpen.subscribers k :=
  ⟨rfl, by decide, rfl, rfl,
    C8_first_match_removal dupOpen "c" 0 _ (makeChan String) rfl (by decide) rfl rfl⟩

/-- Counterexample to C8 as stated: handle 0 is in the list of `c` but its queue is already
closed (the state one `Unsubscribe` leaves when the handle was listed twice); the call finds
the record and then aborts in `close`, instead of yielding the shortened list. -/
theorem C8_counterexample :
    dupClosed.subscribers "c" = some [⟨0, 3, "u"⟩] ∧
    0 ∈ handles [⟨0, 3, "u"⟩] ∧
    Unsubscribe dupClosed "c" 0 = none ∧
    (Unsubscribe dupOpen "c" 0).bind (fun em1 => Unsubscribe em1 "c" 0) = none :=
  ⟨rfl, by decide, rfl, rfl⟩

/-- C9: `Subscribe` is total and, for every state, channel name `c` (seen before or not),
userID `u` and tenantID `t`: the new list of `c` is the old list of `c` (empty if `c` was
absent) with the one record `(queue, u, t)` appended at the end, so the length grows by
exactly 1; the returned handle is the queue of that record and that queue is open, empty and
of capacity 1000; the lists of all other channels are unchanged and the existing queues are
unchanged. -/
theorem C9_subscribe_appends {α : Type} (em : EventManager α) (c : String) (u : Int)
    (t : String) :
    (Subscribe em c u t).1.subscribers c =
        some (subsOf em c ++
          [{ Channel := (Subscribe em c u t).2, UserID := u, TenantID := t }]) ∧
      (subsOf (Subscribe em c u t).1 c).length = (subsOf em c).length + 1 ∧
      (Subscribe em c u t).1.chans[(Subscribe em c u t).2]? =
        some { buf := [], cap := 1000, closed := false } ∧
      (∀ k, k ≠ c → (Subscribe em c u t).1.subscribers k = em.subscribers k) ∧
      (Subscribe em c u t).1.chans.length = em.chans.length + 1 ∧
      (∀ i, i < em.chans.length → (Subscribe em c u t).1.chans[i]? = em.chans[i]?) := by
  refine ⟨?_, ?_, ?_, ?_, ?_, ?_⟩
  · simp [Subscribe, setKey]
  · rw [subsOf_Subscribe, if_pos rfl]
    simp
  · rw [chans_Subscribe_new]
    rfl
  · intro k hk
    simp [Subscribe, setKey, hk]
  · simp [Subscribe]
  · intro i hi
    exact chans_Subscribe_of_lt em c u t hi

/-- C10: for every state and every channel name `c` that is not a key of the registry,
`SendEvent c name payload` returns the state unchanged: no entry is created for `c` and no
queue of any channel receives the event. -/
theorem C10_send_no_subscribers {α : Type} (em : EventManager α) (c : String)
    (hc : em.subscribers c = none) (name : String) (payload : α) :
    SendEvent em c name payload = some em :=
  SendEvent_absent name payload hc

/-- Witness of C10: an event published on a channel nobody subscribed to, while another
channel has three subscribers. -/
theorem C10_send_no_subscribers_witness :
    threeSubscribers.subscribers "idle" = none ∧
    SendEvent threeSubscribers "idle" "test-event" "test-data" = some threeSubscribers :=
  ⟨rfl, C10_send_no_subscribers threeSubscribers "idle" rfl "test-event" "test-data"⟩

/-! ## The singleton -/

theorem NewEventManager_of_once {α : Type} (g : Globals α) (h : g.once = true) :
    NewEventManager g = (g, g.inst) := by
  unfold NewEventManager
  simp only [h, if_true]

theorem runCalls_singleton {α : Type} :
    ∀ (cs : List (Call α)) (g g2 : Globals α) (em : EventManager α),
      g.objects = [em] → g.inst = some 0 → g.once = true → runCalls cs g = some g2 →
      g2.inst = some 0 ∧ g2.once = true ∧
        ∃ em2, run (methodOps cs) em = some em2 ∧ g2.objects = [em2] := by
  intro cs
  induction cs with
  | nil =>
    intro g g2 em ho hi hd hr
    simp only [runCalls] at hr
    cases hr
    exact ⟨hi, hd, em, rfl, ho⟩
  | cons cl cs ih =>
    intro g g2 em ho hi hd hr
    cases cl with
    | newEventManager =>
      simp only [runCalls, callStep, NewEventManager_of_once g hd] at hr
      simpa only [methodOps] using ih g g2 em ho hi hd hr
    | method p op =>
      simp only [runCalls, callStep, callMethod, ho] at hr
      cases p with
      | zero =>
        simp only [List.getElem?_cons_zero] at hr
        cases hs : step em op with
        | none =>
          rw [hs] at hr
          cases hr
        | some em1 =>
          rw [hs] at hr
          simp only [List.set_cons_zero] at hr
          obtain ⟨h1, h2, em2, h3, h4⟩ :=
            ih { objects := [em1], inst := g.inst, once := g.once } g2 em1 rfl hi hd hr
          refine ⟨h1, h2, em2, ?_, h4⟩
          simp only [methodOps, run, hs, h3]
      | succ n =>
        simp at hr

/-- C11 (singleton): over the explicit global state (`instance`, `once`), the first
`NewEventManager` call creates one manager with an empty registry and returns a pointer to
it; a `NewEventManager` call made in a state where `once` has run changes nothing and
returns `instance`; and after any sequence of further `NewEventManager` calls and manager
calls, a `NewEventManager` call returns that same pointer, changes nothing, and the manager
it points to is the one all the manager calls were applied to, so the subscriptions made
before are still in its registry. -/
theorem C11_singleton_idempotent {α : Type} (cs : List (Call α)) (g2 : Globals α)
    (h : runCalls cs (NewEventManager (initialGlobals α)).1 = some g2) :
    (NewEventManager (initialGlobals α)).2 = some 0 ∧
      (NewEventManager (initialGlobals α)).1.objects = [emptyManager α] ∧
      (∀ g : Globals α, NewEventManager (NewEventManager g).1 =
        ((NewEventManager g).1, (NewEventManager g).2)) ∧
      NewEventManager g2 = (g2, some 0) ∧
      ∃ em2, run (methodOps cs) (emptyManager α) = some em2 ∧ g2.objects = [em2] := by
  obtain ⟨h1, h2, em2, h3, h4⟩ :=
    runCalls_singleton cs (NewEventManager (initialGlobals α)).1 g2 (emptyManager α)
      rfl rfl rfl h
  refine ⟨rfl, rfl, ?_, ?_, em2, h3, h4⟩
  · intro g
    by_cases hg : g.once = true
    · rw [NewEventManager_of_once g hg, NewEventManager_of_once g hg]
    · rw [NewEventManager_of_once (NewEventManager g).1 (by simp [NewEventManager, hg])]
      rfl
  · rw [NewEventManager_of_once g2 h2, h1]

/-- Witness of C11: two subscriptions made through the manager are still there when the
manager is asked for again. -/
theorem C11_singleton_idempotent_witness :
    runCalls singletonCalls (NewEventManager (initialGlobals String)).1 =
      some singletonGlobals ∧
    (NewEventManager (initialGlobals String)).2 = some 0 ∧
    (NewEventManager (initialGlobals String)).1.objects = [emptyManager String] ∧
    (∀ g : Globals String, NewEventManager (NewEventManager g).1 =
      ((NewEventManager g).1, (NewEventManager g).2)) ∧
    NewEventManager singletonGlobals = (singletonGlobals, some 0) ∧
    ∃ em2, run (methodOps singletonCalls) (emptyManager String) = some em2 ∧
      singletonGlobals.objects = [em2] :=
  ⟨rfl, C11_singleton_idempotent singletonCalls singletonGlobals rfl⟩

/-! ## Registry, queue bounds and error branches -/

theorem run_total {α : Type} :
    ∀ (ops : List (Op α)) (em : EventManager α), Inv em →
      ∃ em2, run ops em = some em2 ∧ Inv em2 := by
  intro ops
  induction ops with
  | nil =>
    intro em hI
    exact ⟨em, rfl, hI⟩
  | cons op ops ih =>
    intro em hI
    obtain ⟨em1, hs, hI1⟩ := Inv_step hI op
    obtain ⟨em2, hr, hI2⟩ := ih em1 hI1
    refine ⟨em2, ?_, hI2⟩
    simp only [run, hs, hr]

/-- C13 (registry invariant): in every state reachable from the empty registry no channel
key maps to an empty subscriber list; a key is present exactly when the channel has at least
one subscriber. -/
theorem C13_no_empty_list {α : Type} (em : EventManager α) (hr : Reachable em) (c : String) :
    (∀ subs, em.subscribers c = some subs → subs ≠ []) ∧
      ((em.subscribers c).isSome = true ↔ 1 ≤ (subsOf em c).length) := by
  have hne := hr.inv.nonempty c
  refine ⟨hne, ?_⟩
  cases hc : em.subscribers c with
  | none => simp [subsOf, hc]
  | some subs =>
    have h1 : 1 ≤ subs.length := by
      cases subs with
      | nil => exact absurd rfl (hne [] hc)
      | cons s rest => simp
    simp [subsOf, hc, h1]

/-- Witness of C13: the state of the repository's `TestEventManager_Unsubscribe` after its
`Subscribe` and `Unsubscribe`, where the key is gone again. -/
theorem C13_no_empty_list_witness :
    Reachable ((run [Op.subscribe "test-channel" 1 "test-tenant",
        Op.unsubscribe "test-channel" 0] (emptyManager String)).getD (emptyManager String)) ∧
    (∀ subs, ((run [Op.subscribe "test-channel" 1 "test-tenant",
        Op.unsubscribe "test-channel" 0] (emptyManager String)).getD
          (emptyManager String)).subscribers "test-channel" = some subs → subs ≠ []) ∧
    ((((run [Op.subscribe "test-channel" 1 "test-tenant",
        Op.unsubscribe "test-channel" 0] (emptyManager String)).getD
          (emptyManager String)).subscribers "test-channel").isSome = true ↔
      1 ≤ (subsOf ((run [Op.subscribe "test-channel" 1 "test-tenant",
        Op.unsubscribe "test-channel" 0] (emptyManager String)).getD
          (emptyManager String)) "test-channel").length) :=
  ⟨reachable_run_getD _, C13_no_empty_list _ (reachable_run_getD _) "test-channel"⟩

/-- C15 (bounded queues): in every reachable state every queue of the heap, registered or
already unsubscribed, has capacity 1000 and holds at most 1000 events. -/
theorem C15_queue_bounded {α : Type} (em : EventManager α) (hr : Reachable em) (i : Nat)
    (q : Chan α) (hq : em.chans[i]? = some q) : q.buf.length ≤ 1000 ∧ q.cap = 1000 :=
  ⟨(hr.inv.bounded i q hq).2, (hr.inv.bounded i q hq).1⟩

/-- Witness of C15: 1200 events published to a subscriber that never reads. -/
theorem C15_queue_bounded_witness :
    Reachable floodState ∧
    floodState.chans[0]? = some ⟨List.replicate 1000 ⟨"e", "d"⟩, 1000, false⟩ ∧
    (List.replicate 1000 (⟨"e", "d"⟩ : EventData String)).length ≤ 1000 ∧ 1000 = 1000 :=
  ⟨reachable_run_getD _, by rfl,
    C15_queue_bounded floodState (reachable_run_getD _) 0
      ⟨List.replicate 1000 ⟨"e", "d"⟩, 1000, false⟩ (by rfl)⟩

/-- C16 (double unsubscribe): in every reachable state, for every channel `c` and handle `h`,
`Unsubscribe c h` returns, and a second `Unsubscribe c h` returns the state the first one
left: its loop finds no record of `h`, nothing is removed and no queue is closed again. -/
theorem C16_unsubscribe_twice {α : Type} (em : EventManager α) (hr : Reachable em)
    (c : String) (h : Nat) :
    ∃ em1, Unsubscribe em c h = some em1 ∧ Unsubscribe em1 c h = some em1 ∧
      firstMatch h (subsOf em1 c) = none := by
  have hI := hr.inv
  obtain ⟨em1, hu, hI1⟩ := Inv_Unsubscribe hI c h
  have hnot : h ∉ handles (subsOf em1 c) := by
    cases hc : em.subscribers c with
    | none =>
      rw [Unsubscribe_absent h hc] at hu
      cases hu
      rw [subsOf_of_none hc]
      simp [handles]
    | some subs =>
      by_cases hm : h ∈ handles subs
      · obtain ⟨s, hsm, hsh⟩ := exists_of_mem_handles hm
        obtain ⟨q, hq, ho⟩ := hI.isOpen c subs s hc hsm
        rw [hsh] at hq
        have hu2 := hu
        rw [Unsubscribe_match hc hm hq ho] at hu2
        have hq1 : em1.chans[h]? = some { q with closed := true } := by
          cases hu2
          simp only []
          rw [getElem?_set_of_some _ hq, if_pos rfl]
        exact closed_not_registered hI1 hq1 rfl c
      · rw [Unsubscribe_nomatch hc hm (hI.nonempty c subs hc)] at hu
        cases hu
        rw [subsOf_of_some hc]
        exact hm
  refine ⟨em1, hu, ?_, firstMatch_eq_none.mpr hnot⟩
  cases hc1 : em1.subscribers c with
  | none => exact Unsubscribe_absent h hc1
  | some l =>
    rw [subsOf_of_some hc1] at hnot
    exact Unsubscribe_nomatch hc1 hnot (hI1.nonempty c l hc1)

/-- Witness of C16: the second of three subscribers is unsubscribed twice. -/
theorem C16_unsubscribe_twice_witness :
    Reachable threeSubscribers ∧
    ∃ em1, Unsubscribe threeSubscribers "test-channel" 1 = some em1 ∧
      Unsubscribe em1 "test-channel" 1 = some em1 ∧
      firstMatch 1 (subsOf em1 "test-channel") = none :=
  have hr : Reachable threeSubscribers :=
    Reachable.step (Op.subscribe "test-channel" 1 "test-tenant")
      (Reachable.step (Op.subscribe "test-channel" 1 "test-tenant")
        (Reachable.step (Op.subscribe "test-channel" 1 "test-tenant") Reachable.init rfl) rfl) rfl
  ⟨hr, C16_unsubscribe_twice threeSubscribers hr "test-channel" 1⟩

/-- C17 (no operation on a closed queue): in every state reachable from the empty registry
every queue that occurs in the registry is allocated and open; hence no `SendEvent` sends on
a closed queue and no `Unsubscribe` closes a closed queue: both calls return for all
arguments, and so does every further sequence of calls. -/
theorem C17_registered_queues_open {α : Type} (em : EventManager α) (hr : Reachable em) :
    (∀ c subs s, em.subscribers c = some subs → s ∈ subs →
        ∃ q, em.chans[s.Channel]? = some q ∧ q.closed = false) ∧
      (∀ (c name : String) (payload : α), ∃ em1, SendEvent em c name payload = some em1) ∧
      (∀ (c : String) (h : Nat), ∃ em1, Unsubscribe em c h = some em1) ∧
      (∀ ops : List (Op α), ∃ em2, run ops em = some em2) := by
  have hI := hr.inv
  refine ⟨hI.isOpen, ?_, ?_, ?_⟩
  · intro c name payload
    obtain ⟨em1, h1, _⟩ := Inv_SendEvent hI c name payload
    exact ⟨em1, h1⟩
  · intro c h
    obtain ⟨em1, h1, _⟩ := Inv_Unsubscribe hI c h
    exact ⟨em1, h1⟩
  · intro ops
    obtain ⟨em2, h2, _⟩ := run_total ops em hI
    exact ⟨em2, h2⟩

/-- Witness of C17: the state with one subscriber whose queue is full and a second
subscriber. -/
theorem C17_registered_queues_open_witness :
    Reachable overflowState ∧
    (∀ c subs s, overflowState.subscribers c = some subs → s ∈ subs →
        ∃ q, overflowState.chans[s.Channel]? = some q ∧ q.closed = false) ∧
      (∀ (c name : String) (payload : String),
        ∃ em1, SendEvent overflowState c name payload = some em1) ∧
      (∀ (c : String) (h : Nat), ∃ em1, Unsubscribe overflowState c h = some em1) ∧
      (∀ ops : List (Op String), ∃ em2, run ops overflowState = some em2) :=
  ⟨reachable_run_getD overflowOps,
    C17_registered_queues_open overflowState (reachable_run_getD overflowOps)⟩

/-! ## Frame of `SendEvent` and the subscribe/unsubscribe round trip -/

theorem length_eq_of_getElem?_isSome {β : Type} {l1 l2 : List β}
    (h : ∀ i : Nat, l1[i]? = none ↔ l2[i]? = none) : l1.length = l2.length := by
  have h1 : l2.length ≤ l1.length := by
    have := (h l1.length).mp (List.getElem?_eq_none (Nat.le_refl _))
    exact List.getElem?_eq_none_iff.mp this
  have h2 : l1.length ≤ l2.length := by
    have := (h l2.length).mpr (List.getElem?_eq_none (Nat.le_refl _))
    exact List.getElem?_eq_none_iff.mp this
  exact Nat.le_antisymm h2 h1

theorem eraseFirst_append_fresh {h : Nat} (r : SubscriberInfo) (hr : r.Channel = h) :
    ∀ {l : List SubscriberInfo}, h ∉ handles l → eraseFirst h (l ++ [r]) = l := by
  intro l
  induction l with
  | nil =>
    intro _
    simp [eraseFirst, hr]
  | cons s rest ih =>
    intro hn
    have hn2 : ¬ h = s.Channel ∧ h ∉ handles rest := by
      simpa [handles] using hn
    have hs : ¬ s.Channel = h := fun hh => hn2.1 hh.symm
    rw [List.cons_append]
    unfold eraseFirst
    rw [if_neg hs, ih hn2.2]

/-- C18 (frame of `SendEvent`): in every reachable state `SendEvent c name payload` returns
and changes nothing but the buffers of the queues listed on `c`: the registry (keys and
every list, with order, handles, userID and tenantID) is the same, the heap has the same
queues with the same open/closed status and capacity, every queue that is not listed on `c`
is unchanged, and so is in particular every queue registered on a channel other than `c`. -/
theorem C18_send_frame {α : Type} (em : EventManager α) (hr : Reachable em) (c : String)
    (name : String) (payload : α) :
    ∃ em1, SendEvent em c name payload = some em1 ∧
      em1.subscribers = em.subscribers ∧
      em1.chans.length = em.chans.length ∧
      (∀ (i : Nat) (q : Chan α), em.chans[i]? = some q →
        ∃ q1, em1.chans[i]? = some q1 ∧ q1.closed = q.closed ∧ q1.cap = q.cap) ∧
      (∀ i, i ∉ handles (subsOf em c) → em1.chans[i]? = em.chans[i]?) ∧
      (∀ c1, c1 ≠ c → ∀ i, i ∈ handles (subsOf em c1) → em1.chans[i]? = em.chans[i]?) := by
  have hI := hr.inv
  cases hc : em.subscribers c with
  | none =>
    refine ⟨em, SendEvent_absent name payload hc, rfl, rfl, ?_, fun i _ => rfl,
      fun c1 _ i _ => rfl⟩
    intro i q hq
    exact ⟨q, hq, rfl, rfl⟩
  | some subs =>
    obtain ⟨chans1, h1, hspec⟩ := SendEvent_spec hI name payload hc
    have hframe : ∀ i, i ∉ handles subs → chans1[i]? = em.chans[i]? := by
      intro i hi
      rw [hspec, if_neg hi]
    refine ⟨_, h1, rfl, ?_, ?_, ?_, ?_⟩
    · apply length_eq_of_getElem?_isSome
      intro i
      simp only []
      rw [hspec]
      by_cases hi : i ∈ handles subs
      · rw [if_pos hi]
        cases em.chans[i]? <;> simp
      · rw [if_neg hi]
    · intro i q hq
      simp only []
      rw [hspec, hq]
      by_cases hi : i ∈ handles subs
      · rw [if_pos hi]
        exact ⟨_, rfl, deliver_closed _ q, deliver_cap _ q⟩
      · rw [if_neg hi]
        exact ⟨q, rfl, rfl, rfl⟩
    · intro i hi
      rw [subsOf_of_some hc] at hi
      exact hframe i hi
    · intro c1 hne i hi
      obtain ⟨l1, hc1, hm1⟩ := some_of_mem_subsOf hi
      exact hframe i (hI.disjoint c1 c l1 subs hne hc1 hc i hm1)

/-- Witness of C18: an event published on channel `a` while channel `b` has a subscriber. -/
theorem C18_send_frame_witness :
    Reachable twoChannels ∧
    ∃ em1, SendEvent twoChannels "a" "test-event" "test-data" = some em1 ∧
      em1.subscribers = twoChannels.subscribers ∧
      em1.chans.length = twoChannels.chans.length ∧
      (∀ (i : Nat) (q : Chan String), twoChannels.chans[i]? = some q →
        ∃ q1, em1.chans[i]? = some q1 ∧ q1.closed = q.closed ∧ q1.cap = q.cap) ∧
      (∀ i, i ∉ handles (subsOf twoChannels "a") → em1.chans[i]? = twoChannels.chans[i]?) ∧
      (∀ c1, c1 ≠ "a" → ∀ i, i ∈ handles (subsOf twoChannels c1) →
        em1.chans[i]? = twoChannels.chans[i]?) :=
  have hr : Reachable twoChannels :=
    Reachable.step (Op.subscribe "b" 2 "t")
      (Reachable.step (Op.subscribe "a" 1 "t") Reachable.init rfl) rfl
  ⟨hr, C18_send_frame twoChannels hr "a" "test-event" "test-data"⟩

/-- C19 (round trip): in every reachable state, `h := Subscribe c u t` immediately followed
by `Unsubscribe c h` returns and restores the registry exactly: the same keys (`c` absent
again if it was absent) and for every channel the same list in the same order; the heap is
the old heap plus the one new queue `h`, which is empty, closed and on no list. -/
theorem C19_subscribe_unsubscribe {α : Type} (em : EventManager α) (hr : Reachable em)
    (c : String) (u : Int) (t : String) :
    ∃ em2, Unsubscribe (Subscribe em c u t).1 c (Subscribe em c u t).2 = some em2 ∧
      em2.subscribers = em.subscribers ∧
      em2.chans = em.chans ++ [{ buf := [], cap := 1000, closed := true }] ∧
      ∀ k, (Subscribe em c u t).2 ∉ handles (subsOf em2 k) := by
  have hI := hr.inv
  have hfresh : em.chans.length ∉ handles (subsOf em c) := fun hm =>
    Nat.lt_irrefl _ (hI.subsOf_lt c hm)
  have hc1 : (Subscribe em c u t).1.subscribers c =
      some (subsOf em c ++ [⟨em.chans.length, u, t⟩]) := by
    simp [Subscribe, setKey]
  have hm1 : (Subscribe em c u t).2 ∈ handles (subsOf em c ++ [⟨em.chans.length, u, t⟩]) := by
    simp [handles, Subscribe]
  have hu := Unsubscribe_match hc1 hm1 (chans_Subscribe_new em c u t) rfl
  have he : eraseFirst em.chans.length (subsOf em c ++ [⟨em.chans.length, u, t⟩]) =
      subsOf em c := eraseFirst_append_fresh ⟨em.chans.length, u, t⟩ rfl hfresh
  have hsubs : registryAfterRemove (Subscribe em c u t).1.subscribers c
      (eraseFirst (Subscribe em c u t).2 (subsOf em c ++ [⟨em.chans.length, u, t⟩])) =
      em.subscribers := by
    have h2 : (Subscribe em c u t).2 = em.chans.length := rfl
    rw [h2, he]
    funext k
    rw [registryAfterRemove_apply]
    by_cases hk : k = c
    · rw [if_pos hk, hk]
      cases hc : em.subscribers c with
      | none => simp [subsOf_of_none hc]
      | some subs =>
        have hne := hI.nonempty c subs hc
        have hlen : ¬ subs.length = 0 := fun h0 => hne (List.length_eq_zero.mp h0)
        rw [subsOf_of_some hc, if_neg hlen]
    · rw [if_neg hk]
      simp [Subscribe, setKey, hk]
  have hchans : (Subscribe em c u t).1.chans.set (Subscribe em c u t).2
      { buf := (makeChan α).buf, cap := (makeChan α).cap, closed := true } =
      em.chans ++ [{ buf := [], cap := 1000, closed := true }] := by
    simp [Subscribe, makeChan]
  rw [hsubs, hchans] at hu
  obtain ⟨em3, h3, hI3⟩ := Inv_Unsubscribe (Inv_Subscribe hI c u t) c (Subscribe em c u t).2
  rw [hu] at h3
  cases h3
  refine ⟨_, hu, rfl, rfl, fun k => ?_⟩
  have hq : (em.chans ++ [({ buf := [], cap := 1000, closed := true } : Chan α)])[em.chans.length]?
      = some { buf := [], cap := 1000, closed := true } := by
    simp
  exact closed_not_registered hI3 hq rfl k

/-- Witness of C19: a fourth subscriber joins the three of the repository's test and leaves
at once. -/
theorem C19_subscribe_unsubscribe_witness :
    Reachable threeSubscribers ∧
    ∃ em2, Unsubscribe (Subscribe threeSubscribers "test-channel" 4 "test-tenant").1
        "test-channel" (Subscribe threeSubscribers "test-channel" 4 "test-tenant").2 = some em2 ∧
      em2.subscribers = threeSubscribers.subscribers ∧
      em2.chans = threeSubscribers.chans ++ [{ buf := [], cap := 1000, closed := true }] ∧
      ∀ k, (Subscribe threeSubscribers "test-channel" 4 "test-tenant").2 ∉
        handles (subsOf em2 k) :=
  have hr : Reachable threeSubscribers :=
    Reachable.step (Op.subscribe "test-channel" 1 "test-tenant")
      (Reachable.step (Op.subscribe "test-channel" 1 "test-tenant")
        (Reachable.step (Op.subscribe "test-channel" 1 "test-tenant") Reachable.init rfl) rfl) rfl
  ⟨hr, C19_subscribe_unsubscribe threeSubscribers hr "test-channel" 4 "test-tenant"⟩

/-! ## Counting the records -/

theorem eraseFirst_of_not_mem {h : Nat} :
    ∀ {l : List SubscriberInfo}, h ∉ handles l → eraseFirst h l = l := by
  intro l
  induction l with
  | nil => intro _; rfl
  | cons s rest ih =>
    intro hn
    have hn2 : ¬ h = s.Channel ∧ h ∉ handles rest := by
      simpa [handles] using hn
    have hs : ¬ s.Channel = h := fun hh => hn2.1 hh.symm
    unfold eraseFirst
    rw [if_neg hs, ih hn2.2]

/-- The lists after an `Unsubscribe` that returned. -/
theorem subsOf_Unsubscribe {α : Type} {em em1 : EventManager α} (hI : Inv em) {c : String}
    {h : Nat} (hu : Unsubscribe em c h = some em1) (k : String) :
    subsOf em1 k = if k = c then eraseFirst h (subsOf em c) else subsOf em k := by
  cases hc : em.subscribers c with
  | none =>
    rw [Unsubscribe_absent h hc] at hu
    cases hu
    by_cases hk : k = c
    · rw [if_pos hk, hk, subsOf_of_none hc]
      rfl
    · rw [if_neg hk]
  | some subs =>
    rw [subsOf_of_some hc]
    by_cases hm : h ∈ handles subs
    · obtain ⟨s, hsm, hsh⟩ := exists_of_mem_handles hm
      obtain ⟨q, hq, ho⟩ := hI.isOpen c subs s hc hsm
      rw [hsh] at hq
      rw [Unsubscribe_match hc hm hq ho] at hu
      cases hu
      simp only [subsOf]
      rw [registryAfterRemove_apply]
      by_cases hk : k = c
      · rw [if_pos hk, if_pos hk]
        by_cases h0 : (eraseFirst h subs).length = 0
        · rw [if_pos h0, List.length_eq_zero.mp h0]
        · rw [if_neg h0]
      · rw [if_neg hk, if_neg hk]
    · rw [Unsubscribe_nomatch hc hm (hI.nonempty c subs hc)] at hu
      cases hu
      by_cases hk : k = c
      · rw [if_pos hk, hk, subsOf_of_some hc, eraseFirst_of_not_mem hm]
      · rw [if_neg hk]

theorem SendEvent_subscribers {α : Type} {em em1 : EventManager α} {c n : String} {d : α}
    (hs : SendEvent em c n d = some em1) : em1.subscribers = em.subscribers := by
  unfold SendEvent at hs
  cases hc : em.subscribers c with
  | none =>
    rw [hc] at hs
    cases hs
    rfl
  | some subs =>
    rw [hc] at hs
    simp only [] at hs
    cases hl : sendLoop { Event := n, Data := d } subs em.chans with
    | none => rw [hl] at hs; cases hs
    | some chans1 =>
      rw [hl] at hs
      cases hs
      rfl

theorem isSome_iff_subsOf_ne_nil {α : Type} {em : EventManager α} (hI : Inv em) (c : String) :
    (em.subscribers c).isSome = true ↔ subsOf em c ≠ [] := by
  cases hc : em.subscribers c with
  | none => simp [subsOf, hc]
  | some subs =>
    have := hI.nonempty c subs hc
    simp [subsOf, hc, this]

theorem recordCount_mono {α : Type} {em : EventManager α} (hI : Inv em) {K K1 : Finset String}
    (hcov : Covers K em) (hsub : K ⊆ K1) : recordCount K1 em = recordCount K em := by
  unfold recordCount
  symm
  apply Finset.sum_subset hsub
  intro c _ hc
  by_cases hn : subsOf em c = []
  · rw [hn]
    rfl
  · exact absurd (hcov c ((isSome_iff_subsOf_ne_nil hI c).mpr hn)) hc

theorem sum_succ_at {K : Finset String} {c : String} (hc : c ∈ K) (f g : String → Nat)
    (hfg : ∀ k, k ≠ c → g k = f k) (hgc : g c = f c + 1) : K.sum g = K.sum f + 1 := by
  rw [← Finset.add_sum_erase K g hc, ← Finset.add_sum_erase K f hc, hgc]
  have : (K.erase c).sum g = (K.erase c).sum f := by
    apply Finset.sum_congr rfl
    intro k hk
    exact hfg k (Finset.ne_of_mem_erase hk)
  rw [this]
  exact Nat.add_right_comm _ _ _

theorem sum_same {K : Finset String} (f g : String → Nat) (hfg : ∀ k, g k = f k) :
    K.sum g = K.sum f :=
  Finset.sum_congr rfl (fun k _ => hfg k)

theorem eraseFirst_ne_nil {h : Nat} {l : List SubscriberInfo} (hne : eraseFirst h l ≠ []) :
    l ≠ [] := by
  intro hl
  rw [hl] at hne
  exact hne rfl

theorem Covers_step {α : Type} {em em1 : EventManager α} (hI : Inv em) {K : Finset String}
    (hcov : Covers K em) {op : Op α} (hs : step em op = some em1) :
    Covers (K ∪ (subscribedChannels [op]).toFinset) em1 := by
  have hI1 := Inv_of_step hI hs
  intro k hk
  cases op with
  | subscribe c u t =>
    simp only [step] at hs
    cases hs
    simp only [subscribedChannels, List.toFinset_cons, List.toFinset_nil, Finset.mem_union,
      Finset.mem_insert, Finset.not_mem_empty, or_false]
    by_cases hkc : k = c
    · exact Or.inr hkc
    · left
      apply hcov
      simpa [Subscribe, setKey, hkc] using hk
  | unsubscribe c h =>
    simp only [step] at hs
    simp only [subscribedChannels, List.toFinset_nil, Finset.union_empty]
    apply hcov
    rw [isSome_iff_subsOf_ne_nil hI]
    have h1 := (isSome_iff_subsOf_ne_nil hI1 k).mp hk
    rw [subsOf_Unsubscribe hI hs k] at h1
    by_cases hkc : k = c
    · rw [if_pos hkc] at h1
      rw [hkc]
      exact eraseFirst_ne_nil h1
    · rw [if_neg hkc] at h1
      exact h1
  | sendEvent c n d =>
    simp only [step] at hs
    simp only [subscribedChannels, List.toFinset_nil, Finset.union_empty]
    apply hcov
    rw [← SendEvent_subscribers hs]
    exact hk
  | receive h =>
    simp only [step] at hs
    cases hs
    simp only [subscribedChannels, List.toFinset_nil, Finset.union_empty]
    apply hcov
    rw [← Receive_subscribers em h]
    exact hk

theorem recordCount_step {α : Type} {em em1 : EventManager α} (hI : Inv em)
    {K : Finset String} (hcov : Covers K em) (hcov1 : Covers K em1) {op : Op α}
    (hs : step em op = some em1) :
    recordCount K em1 + (if foundMatch em op then 1 else 0) =
      recordCount K em + subscribeCalls [op] := by
  have hI1 := Inv_of_step hI hs
  cases op with
  | subscribe c u t =>
    simp only [step] at hs
    cases hs
    have hc : c ∈ K := by
      apply hcov1
      simp [Subscribe, setKey]
    simp only [foundMatch, subscribeCalls, Bool.false_eq_true, if_false, Nat.add_zero,
      Nat.zero_add]
    unfold recordCount
    apply sum_succ_at hc
    · intro k hk
      rw [subsOf_Subscribe, if_neg hk]
    · rw [subsOf_Subscribe, if_pos rfl]
      simp
  | unsubscribe c h =>
    simp only [step] at hs
    simp only [foundMatch, subscribeCalls, Nat.add_zero]
    by_cases hm : h ∈ handles (subsOf em c)
    · obtain ⟨i, hi⟩ := firstMatch_of_mem hm
      have hc : c ∈ K := by
        apply hcov
        rw [isSome_iff_subsOf_ne_nil hI]
        intro hnil
        rw [hnil] at hm
        simp [handles] at hm
      simp only [hi, Option.isSome_some, if_true]
      unfold recordCount
      symm
      apply sum_succ_at hc
      · intro k hk
        rw [subsOf_Unsubscribe hI hs k, if_neg hk]
      · rw [subsOf_Unsubscribe hI hs c, if_pos rfl]
        exact (length_eraseFirst hm).symm
    · simp only [firstMatch_eq_none.mpr hm, Option.isSome_none, Bool.false_eq_true, if_false,
        Nat.add_zero]
      unfold recordCount
      apply sum_same
      intro k
      rw [subsOf_Unsubscribe hI hs k]
      by_cases hk : k = c
      · rw [if_pos hk, hk, eraseFirst_of_not_mem hm]
      · rw [if_neg hk]
  | sendEvent c n d =>
    simp only [step] at hs
    simp only [foundMatch, subscribeCalls, Bool.false_eq_true, if_false, Nat.add_zero]
    unfold recordCount
    apply sum_same
    intro k
    simp only [subsOf, SendEvent_subscribers hs]
  | receive h =>
    simp only [step] at hs
    cases hs
    simp only [foundMatch, subscribeCalls, Bool.false_eq_true, if_false, Nat.add_zero]
    unfold recordCount
    apply sum_same
    intro k
    simp only [subsOf, Receive_subscribers]

theorem Covers_mono {α : Type} {em : EventManager α} {K K1 : Finset String}
    (hcov : Covers K em) (hsub : K ⊆ K1) : Covers K1 em :=
  fun c hc => hsub (hcov c hc)

theorem subscribeCalls_cons {α : Type} (op : Op α) (ops : List (Op α)) :
    subscribeCalls (op :: ops) = subscribeCalls [op] + subscribeCalls ops := by
  cases op <;> simp [subscribeCalls, Nat.add_comm]

theorem subscribedChannels_cons {α : Type} (op : Op α) (ops : List (Op α)) :
    subscribedChannels (op :: ops) = subscribedChannels [op] ++ subscribedChannels ops := by
  cases op <;> simp [subscribedChannels]

theorem Covers_run {α : Type} :
    ∀ (ops : List (Op α)) (em em2 : EventManager α) (K : Finset String), Inv em →
      Covers K em → run ops em = some em2 →
      Covers (K ∪ (subscribedChannels ops).toFinset) em2 := by
  intro ops
  induction ops with
  | nil =>
    intro em em2 K _ hcov hr
    simp only [run] at hr
    cases hr
    exact Covers_mono hcov Finset.subset_union_left
  | cons op ops ih =>
    intro em em2 K hI hcov hr
    simp only [run] at hr
    cases hs : step em op with
    | none => rw [hs] at hr; cases hr
    | some em1 =>
      rw [hs] at hr
      have h1 := ih em1 em2 _ (Inv_of_step hI hs) (Covers_step hI hcov hs) hr
      rw [subscribedChannels_cons, List.toFinset_append, ← Finset.union_assoc]
      exact h1

theorem recordCount_run {α : Type} :
    ∀ (ops : List (Op α)) (em em2 : EventManager α) (K : Finset String), Inv em →
      Covers K em → Covers K em2 → run ops em = some em2 →
      recordCount K em2 + matchedUnsubscribes ops em = recordCount K em + subscribeCalls ops := by
  intro ops
  induction ops with
  | nil =>
    intro em em2 K _ _ _ hr
    simp only [run] at hr
    cases hr
    simp [matchedUnsubscribes, subscribeCalls]
  | cons op ops ih =>
    intro em em2 K hI hcov hcov2 hr
    simp only [run] at hr
    cases hs : step em op with
    | none => rw [hs] at hr; cases hr
    | some em1 =>
      rw [hs] at hr
      have hr : run ops em1 = some em2 := hr
      have hI1 := Inv_of_step hI hs
      have hI2 : Inv em2 := by
        obtain ⟨em3, h3, hI3⟩ := run_total ops em1 hI1
        rw [hr] at h3
        cases h3
        exact hI3
      have hsub : K ⊆ K ∪ (subscribedChannels [op]).toFinset := Finset.subset_union_left
      have hc1 := Covers_step hI hcov hs
      have hstep := recordCount_step hI (Covers_mono hcov hsub) hc1 hs
      have hrest := ih em1 em2 _ hI1 hc1 (Covers_mono hcov2 hsub) hr
      rw [recordCount_mono hI2 hcov2 hsub] at hrest
      rw [recordCount_mono hI hcov hsub] at hstep
      simp only [matchedUnsubscribes, hs]
      rw [subscribeCalls_cons]
      omega

/-- C14 (handle uniqueness and record count): in the state reached from the empty registry
by any call sequence, each `Subscribe` allocating a fresh queue, no queue handle occurs twice
in one channel's list nor in the lists of two different channels; every key of the registry
is a channel name some `Subscribe` call was given; and the number of records in the registry
(summed over any finite set of channel names that contains all keys) equals the number of
`Subscribe` calls minus the number of `Unsubscribe` calls that found a match. -/
theorem C14_handles_unique_and_counted {α : Type} (ops : List (Op α)) (em : EventManager α)
    (h : run ops (emptyManager α) = some em) :
    (∀ c subs, em.subscribers c = some subs → (handles subs).Nodup) ∧
      (∀ c1 c2 l1 l2, c1 ≠ c2 → em.subscribers c1 = some l1 → em.subscribers c2 = some l2 →
        ∀ x, x ∈ handles l1 → x ∉ handles l2) ∧
      Covers (subscribedChannels ops).toFinset em ∧
      ∀ K : Finset String, Covers K em →
        matchedUnsubscribes ops (emptyManager α) ≤ subscribeCalls ops ∧
        recordCount K em = subscribeCalls ops - matchedUnsubscribes ops (emptyManager α) := by
  have hI0 := Inv_emptyManager α
  have hI : Inv em := (reachable_run ops Reachable.init h).inv
  have hcov0 : ∀ K : Finset String, Covers K (emptyManager α) := by
    intro K c hc
    simp [emptyManager] at hc
  refine ⟨hI.nodup, hI.disjoint, ?_, ?_⟩
  · have := Covers_run ops (emptyManager α) em ∅ hI0 (hcov0 ∅) h
    rw [Finset.empty_union] at this
    exact this
  · intro K hK
    have hcount := recordCount_run ops (emptyManager α) em K hI0 (hcov0 K) hK h
    have h0 : recordCount K (emptyManager α) = 0 := by
      unfold recordCount
      apply Finset.sum_eq_zero
      intro c _
      rfl
    rw [h0] at hcount
    omega

/-- Witness of C14: three `Subscribe` calls and one matching `Unsubscribe` leave two
records. -/
theorem C14_handles_unique_and_counted_witness :
    run mixedOps (emptyManager String) = some mixedState ∧
    subscribeCalls mixedOps = 3 ∧ matchedUnsubscribes mixedOps (emptyManager String) = 1 ∧
    (subsOf mixedState "a", subsOf mixedState "b") = ([⟨2, 3, "t"⟩], [⟨1, 2, "t"⟩]) ∧
    (∀ c subs, mixedState.subscribers c = some subs → (handles subs).Nodup) ∧
      (∀ c1 c2 l1 l2, c1 ≠ c2 → mixedState.subscribers c1 = some l1 →
        mixedState.subscribers c2 = some l2 → ∀ x, x ∈ handles l1 → x ∉ handles l2) ∧
      Covers (subscribedChannels mixedOps).toFinset mixedState ∧
      ∀ K : Finset String, Covers K mixedState →
        matchedUnsubscribes mixedOps (emptyManager String) ≤ subscribeCalls mixedOps ∧
        recordCount K mixedState =
          subscribeCalls mixedOps - matchedUnsubscribes mixedOps (emptyManager String) :=
  ⟨rfl, by decide, by decide, by decide,
    C14_handles_unique_and_counted mixedOps mixedState rfl⟩

end GoEventManager
